import Mathlib

/-!
Verification of the athread task-graph execution engine.

This file gives a shallow embedding of the engine's data model and operations:

* `Node` / `Heap` model the allocated `at::INode` objects (src/src/athread/node.h,
  runnable.h).  A C++ pointer is modelled as `Ptr := Option NodeId`, `none` being
  `nullptr`; the heap is an association list from node ids (addresses) to node
  records.  Dereferencing a null or dangling pointer — undefined behaviour in the
  C++ source — is modelled as the explicit error `AtErr.nullDeref` that aborts the
  operation with the state it had before the call.
* `Task` models the non-owning handle `at::Task` (task.h); `Task.depend`,
  `Task.precede`, `Task.erase_depend`, `Task.erase_precede`, `Task.state`,
  `Task.reset_state`, `Task.predecessors_size`, `Task.successors_size` and the
  guarded iterator accessors are translated from task.h and the Task
  implementation file.
* `ThreadGraph` with `ThreadGraph.push` and `ThreadGraph.erase` is translated from
  threadgraph.cpp.
* `trace_ready_depend`, `trace_depend_loop`, `trace_ready_node_entry`,
  `succ_scan`, `succ_scan_delay` and `trace_ready_node` are translated from
  `ThreadGraph::trace_ready_depend` / `ThreadGraph::trace_ready_node`
  (threadgraph.cpp lines 252-380).  The C++ recursion has no termination measure
  of its own (a cyclic graph makes it diverge), so the Lean translation takes an
  explicit `fuel` argument and returns `none` when the fuel runs out or a
  null/dangling pointer is dereferenced.
* `GraphWorker.process_tasks` (worker implementation file, lines 27-88) is
  modelled by the labelled transition relation `stepRel`: a `claimStep` performs
  exactly the lock-held lines 41-49 (trace verdict READY, mark the node
  EXECUTING, drop it from the ready cache) and a `completeStep` performs line 61
  (mark an executing node COMPLETED).  Waiting on the condition variable and the
  termination check do not change the graph state and are therefore not steps.
* `threadgraph_wait` models the exception-collecting loop of `ThreadGraph::wait`
  (threadgraph.cpp lines 126-159) applied to the outcomes of the workers'
  completion promises.
-/

namespace AThread

/-- Node execution states, from `IRunnable::RunnableState` (runnable.h). -/
inductive RunnableState where
  | ready
  | executing
  | completed
deriving DecidableEq, Repr

/-- Trace verdicts, from `at::TraceNodeState` (threadgraph.h). -/
inductive TraceNodeState where
  | ready
  | pending
  | completed
deriving DecidableEq, Repr

/-- Errors surfaced by the engine.  `invalidArgument` and `runtimeError` model
`AT_INVALID_ARGUMENT` and `AT_RUNTIME_ERROR` (athread.h); `nullDeref` models a
dereference of a null or dangling node pointer, which is undefined behaviour in
the C++ source. -/
inductive AtErr where
  | invalidArgument (msg : String)
  | runtimeError (msg : String)
  | nullDeref
deriving DecidableEq, Repr

/-- `true` iff the error is an `AT_INVALID_ARGUMENT`. -/
def AtErr.isInvalidArgument : AtErr → Bool
  | .invalidArgument _ => true
  | _ => false

/-- The error raised by the direct-cycle check in `Task::depend`
(`AT_RUNTIME_ERROR("Circular dependency detected")`); the specification's §7
names this error kind CYCLE. -/
def cycleError : AtErr := .runtimeError "Circular dependency detected"

/-- A node identity: the spec's "stable process-unique handle value (e.g. its
address)". -/
abbrev NodeId := Nat

/-- A node pointer; `none` is `nullptr`. -/
abbrev Ptr := Option NodeId

/-- An `at::INode`: execution state plus the predecessor/successor edge lists
(node.h, runnable.h).  The payload callable is irrelevant to the claims and is
not modelled. -/
structure Node where
  state : RunnableState
  predecessors : List Ptr
  successors : List Ptr
deriving DecidableEq, Repr

/-- The allocated nodes: an association list from node id (address) to node. -/
abbrev Heap := List (NodeId × Node)

/-- Pointer dereference: the first entry with the given id, if any. -/
def Heap.lookup : Heap → NodeId → Option Node
  | [], _ => none
  | e :: es, i => if e.1 = i then some e.2 else Heap.lookup es i

/-- In-place mutation of the node with id `i` (all entries carrying that id). -/
def Heap.update (h : Heap) (i : NodeId) (f : Node → Node) : Heap :=
  h.map fun e => if e.1 = i then (e.1, f e.2) else e

/-- `delete` of the node with id `i`. -/
def Heap.eraseId (h : Heap) (i : NodeId) : Heap :=
  h.filter fun e => !(e.1 == i)

/-- The non-owning task handle `at::Task` (task.h): a raw node pointer. -/
structure Task where
  node : Ptr
deriving DecidableEq, Repr

/-- `Task::empty()` (task.h line 188): `_node == nullptr`. -/
def Task.empty (t : Task) : Bool := t.node == none

/-- `Task::state()` (task.h line 179): `static_cast<TaskState>(_node->state())`
with no null guard, so an empty or dangling handle has no defined result
(`none`). -/
def Task.state (h : Heap) (t : Task) : Option RunnableState :=
  match t.node with
  | none => none
  | some nid => (h.lookup nid).map fun n => n.state

/-- `Task::predecessors_size()` (task.h line 195): unguarded `_node` deref. -/
def Task.predecessors_size (h : Heap) (t : Task) : Option Nat :=
  match t.node with
  | none => none
  | some nid => (h.lookup nid).map fun n => n.predecessors.length

/-- `Task::successors_size()` (task.h line 202): unguarded `_node` deref. -/
def Task.successors_size (h : Heap) (t : Task) : Option Nat :=
  match t.node with
  | none => none
  | some nid => (h.lookup nid).map fun n => n.successors.length

/-- `Task::reset_state()`: `if (_node) _node->set_state(INode::Ready);` — guarded
against a null node. -/
def Task.reset_state (h : Heap) (t : Task) : Heap :=
  match t.node with
  | none => h
  | some nid => h.update nid fun n => { n with state := .ready }

/-- `Task::begin_predecessors()` (with `end_predecessors` understood as the
matching end): the iterator range, as the list it ranges over.  A null handle is
guarded (`_node ? ... : TaskIterator({})`) and yields the empty range; a dangling
handle dereferences (`none`). -/
def Task.begin_predecessors (h : Heap) (t : Task) : Option (List Ptr) :=
  match t.node with
  | none => some []
  | some nid => (h.lookup nid).map fun n => n.predecessors

/-- `Task::begin_successors()`, guarded like `begin_predecessors`. -/
def Task.begin_successors (h : Heap) (t : Task) : Option (List Ptr) :=
  match t.node with
  | none => some []
  | some nid => (h.lookup nid).map fun n => n.successors

/-- `Task::depend(const Task& t)` (Task implementation, lines 11-31).  `self` is
`*this`, `other` is `t`.  Statement-by-statement translation; a raised exception
returns the heap as it was at the raising statement (all raises precede the two
conditional `push_back`s, so a failing call leaves every edge list unchanged).
The second duplicate check reads `t._node->_successors`; since the self-edge
check guarantees `tid ≠ sid`, the first `push_back` (into node `sid`) cannot have
moved it, and the pre-update `tnode` is used directly. -/
def Task.depend (h : Heap) (self other : Task) : Option AtErr × Heap :=
  match other.node with
  | none => (some (.invalidArgument "Task is not valid"), h)
  | some tid =>
    if other.node = self.node then
      (some (.invalidArgument "Cannot set relation to itself"), h)
    else
      match h.lookup tid with
      | none => (some .nullDeref, h)
      | some tnode =>
        if self.node ∈ tnode.predecessors then (some cycleError, h)
        else
          match self.node with
          | none => (some .nullDeref, h)
          | some sid =>
            match h.lookup sid with
            | none => (some .nullDeref, h)
            | some snode =>
              let h1 :=
                if some tid ∈ snode.predecessors then h
                else h.update sid fun n =>
                  { n with predecessors := n.predecessors ++ [some tid] }
              if some sid ∈ tnode.successors then (none, h1)
              else
                (none, h1.update tid fun n =>
                  { n with successors := n.successors ++ [some sid] })

/-- `Task::precede(const Task& t)`: `Task tmp = t; tmp.depend(*this);`. -/
def Task.precede (h : Heap) (self other : Task) : Option AtErr × Heap :=
  Task.depend h other self

/-- `Task::erase_depend(const Task& other)` (Task implementation, lines 52-63):
guarded on both handles being non-null; removes every occurrence of `other` from
`self`'s predecessors and every occurrence of `self` from `other`'s successors. -/
def Task.erase_depend (h : Heap) (self other : Task) : Heap :=
  match self.node, other.node with
  | some sid, some oid =>
    (h.update sid fun n =>
        { n with predecessors := n.predecessors.filter fun q => !(q == some oid) }).update
      oid fun n =>
        { n with successors := n.successors.filter fun q => !(q == some sid) }
  | _, _ => h

/-- `Task::erase_precede(const Task& other)` (Task implementation, lines 74-85). -/
def Task.erase_precede (h : Heap) (self other : Task) : Heap :=
  match self.node, other.node with
  | some sid, some oid =>
    (h.update sid fun n =>
        { n with successors := n.successors.filter fun q => !(q == some oid) }).update
      oid fun n =>
        { n with predecessors := n.predecessors.filter fun q => !(q == some sid) }
  | _, _ => h

/-- The graph state (threadgraph.h): allocated nodes, `_task_pool`,
`_ready_tasks_cache`, `_executing_flag`, `_termination_flag`.  The mutex,
condition variable and worker contexts carry no graph-structure state. -/
structure ThreadGraph where
  heap : Heap
  taskPool : List NodeId
  readyCache : List NodeId
  executingFlag : Bool
  terminationFlag : Bool
deriving DecidableEq, Repr

/-- `ThreadGraph::push(INode*)` (threadgraph.cpp lines 36-52), translated
statement by statement; all raises precede the `push_back`, so a failing push
leaves the task pool unchanged. -/
def ThreadGraph.push (g : ThreadGraph) (node : Ptr) : ThreadGraph × Except AtErr Task :=
  match node with
  | none => (g, .error (.invalidArgument "Node is null. A valid node must be provided."))
  | some nid =>
    if g.executingFlag then
      (g, .error (.runtimeError "Cannot push tasks while executing."))
    else
      match g.heap.lookup nid with
      | none => (g, .error .nullDeref)
      | some n =>
        if n.state = .executing ∨ n.state = .completed then
          (g, .error (.invalidArgument
            "Node is already in EXECUTING or COMPLETE state. A valid node must be provided."))
        else if nid ∈ g.taskPool then
          (g, .error (.invalidArgument
            "Node is already in the graph. A valid node must be provided."))
        else
          ({ g with taskPool := g.taskPool ++ [nid] }, .ok ⟨some nid⟩)

/-- One pass of the unlink loops in `ThreadGraph::erase` (threadgraph.cpp lines
62-74): for each neighbour pointer dereference it and apply `upd` (an edge-list
`erase(remove(...))`).  A null or dangling neighbour pointer is the source's
undefined behaviour (`none`). -/
def removeEdgeRefs (h : Heap) (upd : Node → Node) : List Ptr → Option Heap
  | [] => some h
  | none :: _ => none
  | some pid :: rest =>
    match h.lookup pid with
    | none => none
    | some _ => removeEdgeRefs (h.update pid upd) upd rest

/-- `ThreadGraph::erase(Task&)` (threadgraph.cpp lines 54-81).  Returns the new
graph, the (possibly nulled) handle, and the outcome. -/
def ThreadGraph.erase (g : ThreadGraph) (t : Task) : ThreadGraph × Task × Except AtErr Bool :=
  match t.node with
  | none => (g, t, .ok false)
  | some v =>
    if g.executingFlag then
      (g, t, .error (.runtimeError "Cannot erase tasks while executing."))
    else if v ∈ g.taskPool then
      match g.heap.lookup v with
      | none => (g, t, .error .nullDeref)
      | some n =>
        match removeEdgeRefs g.heap
            (fun m => { m with successors := m.successors.filter fun q => !(q == some v) })
            n.predecessors with
        | none => (g, t, .error .nullDeref)
        | some h1 =>
          match removeEdgeRefs h1
              (fun m => { m with predecessors := m.predecessors.filter fun q => !(q == some v) })
              n.successors with
          | none => (g, t, .error .nullDeref)
          | some h2 =>
            ({ g with heap := h2.eraseId v, taskPool := g.taskPool.erase v }, ⟨none⟩, .ok true)
    else (g, t, .ok false)

/-- The predecessor loop of `ThreadGraph::trace_ready_depend` (threadgraph.cpp
lines 268-296), abstracted over the recursive call `recur`.  `exe` is the local
`std::pair exe`: it is "remembered" (non-`none`) exactly when a READY
predecessor's recursion returned PENDING or an EXECUTING predecessor was seen
(its `.second` is then non-null).  At the end of the loop the most recently
remembered pair is returned if any, else `(READY, e)`. -/
def trace_depend_loop (h : Heap) (recur : NodeId → Option (TraceNodeState × NodeId))
    (avoids : List NodeId) (e : NodeId) :
    List Ptr → Option (TraceNodeState × NodeId) → Option (TraceNodeState × NodeId)
  | [], exe => some (exe.getD (.ready, e))
  | none :: ps, exe => trace_depend_loop h recur avoids e ps exe
  | some pid :: ps, exe =>
    if pid ∈ avoids then trace_depend_loop h recur avoids e ps exe
    else
      match h.lookup pid with
      | none => none
      | some pn =>
        match pn.state with
        | .ready =>
          match recur pid with
          | none => none
          | some br =>
            match br.1 with
            | .ready => some br
            | .pending => trace_depend_loop h recur avoids e ps (some br)
            | .completed => trace_depend_loop h recur avoids e ps exe
        | .executing => trace_depend_loop h recur avoids e ps (some (.pending, pid))
        | .completed => trace_depend_loop h recur avoids e ps exe

/-- `ThreadGraph::trace_ready_depend(entryNode, avoids)` (threadgraph.cpp lines
252-297).  Every call site passes a non-null entry node, so the entry is a
`NodeId`; `fuel` bounds the recursion depth, `none` meaning the fuel ran out or a
dangling pointer was dereferenced (the C++ recursion diverges on a dependency
cycle). -/
def trace_ready_depend (h : Heap) (fuel : Nat) (e : NodeId) (avoids : List NodeId) :
    Option (TraceNodeState × NodeId) :=
  match fuel with
  | 0 => none
  | fuel' + 1 =>
    match h.lookup e with
    | none => none
    | some n =>
      match n.state with
      | .executing => some (.pending, e)
      | .completed => some (.completed, e)
      | .ready =>
        trace_depend_loop h (fun pid => trace_ready_depend h fuel' pid avoids)
          avoids e n.predecessors none

/-- The predecessor loop as claim C2 words it: the remembered PENDING results are
kept as a list, and at the end the most recent one (the last) is returned if the
list is non-empty, else `(READY, e)`. -/
def trace_depend_loop_claim (h : Heap) (recur : NodeId → Option (TraceNodeState × NodeId))
    (avoids : List NodeId) (e : NodeId) :
    List Ptr → List (TraceNodeState × NodeId) → Option (TraceNodeState × NodeId)
  | [], remembered =>
    match remembered.getLast? with
    | some r => some r
    | none => some (.ready, e)
  | none :: ps, remembered => trace_depend_loop_claim h recur avoids e ps remembered
  | some pid :: ps, remembered =>
    if pid ∈ avoids then trace_depend_loop_claim h recur avoids e ps remembered
    else
      match h.lookup pid with
      | none => none
      | some pn =>
        match pn.state with
        | .ready =>
          match recur pid with
          | none => none
          | some br =>
            match br.1 with
            | .ready => some br
            | .pending => trace_depend_loop_claim h recur avoids e ps (remembered ++ [br])
            | .completed => trace_depend_loop_claim h recur avoids e ps remembered
        | .executing =>
          trace_depend_loop_claim h recur avoids e ps (remembered ++ [(.pending, pid)])
        | .completed => trace_depend_loop_claim h recur avoids e ps remembered

/-- Claim C2's description of `trace_ready_depend`: return `(PENDING, E)` when E
is EXECUTING, `(COMPLETED, E)` when E is COMPLETED, and otherwise iterate E's
predecessors (skipping nulls and members of the avoid set), returning the first
recursive READY result, else the most recently remembered PENDING result, else
`(READY, E)`. -/
def trace_ready_depend_claim (h : Heap) (fuel : Nat) (e : NodeId) (avoids : List NodeId) :
    Option (TraceNodeState × NodeId) :=
  match fuel with
  | 0 => none
  | fuel' + 1 =>
    match h.lookup e with
    | none => none
    | some n =>
      match n.state with
      | .executing => some (.pending, e)
      | .completed => some (.completed, e)
      | .ready =>
        trace_depend_loop_claim h (fun pid => trace_ready_depend_claim h fuel' pid avoids)
          avoids e n.predecessors []

/-- The EXECUTING scan of the entry variant (threadgraph.cpp lines 307-308): the
first task in the pool whose state is EXECUTING, if any (`some (some t)`); `none`
when a pool entry dangles. -/
def findExecuting (h : Heap) : List NodeId → Option (Option NodeId)
  | [] => some none
  | t :: ts =>
    match h.lookup t with
    | none => none
    | some n => if n.state = .executing then some (some t) else findExecuting h ts

/-- The entry variant of `ThreadGraph::trace_ready_node` with a null hint
(threadgraph.cpp lines 303-309 and the final line 379). -/
def trace_ready_node_entry (g : ThreadGraph) (fuel : Nat) : Option (TraceNodeState × Ptr) :=
  match g.readyCache with
  | c :: _ => (trace_ready_depend g.heap fuel c []).map fun r => (r.1, some r.2)
  | [] =>
    match findExecuting g.heap g.taskPool with
    | none => none
    | some (some t) => some (.pending, some t)
    | some none => some (.completed, none)

/-- The successor loop of the EXECUTING-hint branch (threadgraph.cpp lines
316-326): for each successor in READY, trace-depend it and return the first READY
result.  The loop reads `node->state()` with no null guard. -/
def succ_scan (h : Heap) (fuel : Nat) : List Ptr → Option (Option (TraceNodeState × NodeId))
  | [] => some none
  | none :: _ => none
  | some sid :: ps =>
    match h.lookup sid with
    | none => none
    | some sn =>
      if sn.state = .ready then
        match trace_ready_depend h fuel sid [] with
        | none => none
        | some r => if r.1 = .ready then some (some r) else succ_scan h fuel ps
      else succ_scan h fuel ps

/-- The successor loop of the COMPLETED-hint branch (threadgraph.cpp lines
354-370): like `succ_scan` but remembering the latest PENDING result in `delay`
(initially `(PENDING, nullptr)`, i.e. `none`). -/
def succ_scan_delay (h : Heap) (fuel : Nat) :
    List Ptr → Option (TraceNodeState × NodeId) →
      Option ((TraceNodeState × NodeId) ⊕ Option (TraceNodeState × NodeId))
  | [], delay => some (.inr delay)
  | none :: _, _ => none
  | some sid :: ps, delay =>
    match h.lookup sid with
    | none => none
    | some sn =>
      if sn.state = .ready then
        match trace_ready_depend h fuel sid [] with
        | none => none
        | some r =>
          if r.1 = .ready then some (.inl r)
          else if r.1 = .pending then succ_scan_delay h fuel ps (some r)
          else succ_scan_delay h fuel ps delay
      else succ_scan_delay h fuel ps delay

/-- `ThreadGraph::trace_ready_node(entryNode)` (threadgraph.cpp lines 301-380),
dispatching on the hint and its state exactly as the source does; the final
`return std::pair(TraceNodeState::Completed, nullptr)` is each branch's
fall-through. -/
def trace_ready_node (g : ThreadGraph) (fuel : Nat) (entry : Ptr) :
    Option (TraceNodeState × Ptr) :=
  match entry with
  | none => trace_ready_node_entry g fuel
  | some e =>
    match g.heap.lookup e with
    | none => none
    | some n =>
      match n.state with
      | .executing =>
        match succ_scan g.heap fuel n.successors with
        | none => none
        | some (some r) => some (r.1, some r.2)
        | some none =>
          match trace_ready_node_entry g fuel with
          | none => none
          | some nr => if nr.1 = .ready then some nr else some (.pending, some e)
      | .ready =>
        match trace_ready_depend g.heap fuel e [] with
        | none => none
        | some rd =>
          if rd.1 = .ready then some (rd.1, some rd.2)
          else if rd.1 = .pending then
            match trace_ready_node_entry g fuel with
            | none => none
            | some nr => if nr.1 = .ready then some nr else some (.pending, some rd.2)
          else some (.completed, none)
      | .completed =>
        match succ_scan_delay g.heap fuel n.successors none with
        | none => none
        | some (.inl r) => some (r.1, some r.2)
        | some (.inr delay) =>
          match trace_ready_node_entry g fuel with
          | none => none
          | some nr =>
            if nr.1 = .ready then some nr
            else
              match delay with
              | some d => some (d.1, some d.2)
              | none => if nr.1 = .pending then some nr else some (.completed, none)

/-- Worker lines 47-48: mark the claimed node EXECUTING and remove it from the
ready cache (`remove_ready_cache` erases the first occurrence). -/
def ThreadGraph.claimNode (g : ThreadGraph) (nid : NodeId) : ThreadGraph :=
  { g with
    heap := g.heap.update nid fun n => { n with state := .executing }
    readyCache := g.readyCache.erase nid }

/-- Worker line 61: mark the executed node COMPLETED. -/
def ThreadGraph.completeNode (g : ThreadGraph) (nid : NodeId) : ThreadGraph :=
  { g with heap := g.heap.update nid fun n => { n with state := .completed } }

/-- The observable actions of a graph worker's loop. -/
inductive StepLabel where
  | claimStep (hint : Ptr) (nid : NodeId)
  | completeStep (nid : NodeId)
deriving DecidableEq, Repr

/-- One state-changing step of `GraphWorker::process_tasks` under the tasks
mutex.  A `claimStep` requires the trace algorithm to have returned verdict READY
for the node (worker lines 41-49); a `completeStep` marks a currently-executing
node COMPLETED (line 61).  Condition-variable waits and termination checks leave
the graph unchanged and are not steps. -/
def stepRel (fuel : Nat) (g : ThreadGraph) (l : StepLabel) (g' : ThreadGraph) : Prop :=
  match l with
  | .claimStep hint nid =>
    trace_ready_node g fuel hint = some (.ready, some nid) ∧ g' = g.claimNode nid
  | .completeStep nid =>
    (∃ m, g.heap.lookup nid = some m ∧ m.state = .executing) ∧ g' = g.completeNode nid

/-- The edge lists of node `i`, used to state that worker steps change only
node states, never edges. -/
def edgesAt (g : ThreadGraph) (i : NodeId) : Option (List Ptr × List Ptr) :=
  (g.heap.lookup i).map fun n => (n.predecessors, n.successors)

/-- Every non-null predecessor of `x` outside the avoid set is COMPLETED. -/
def allPredsCompleted (h : Heap) (avoids : List NodeId) (x : NodeId) : Prop :=
  ∀ n, h.lookup x = some n → ∀ p ∈ n.predecessors, ∀ q, p = some q → q ∉ avoids →
    ∃ m, h.lookup q = some m ∧ m.state = .completed

/-- One iteration of the exception-collection loop of `ThreadGraph::wait`
(threadgraph.cpp lines 130-143): a faulted worker's message is appended to the
accumulator followed by a newline; a normally-completed worker adds nothing. -/
def wait_collect_step (acc : String) (o : Option String) : String :=
  match o with
  | some m => acc ++ m ++ "\n"
  | none => acc

/-- The exception-message collection loop of `ThreadGraph::wait` (threadgraph.cpp
lines 128-143): each worker outcome is `none` (normal completion) or
`some msg` (the captured exception's message); the messages are concatenated in
order, each followed by a newline. -/
def collect_exception_msgs (outcomes : List (Option String)) : String :=
  outcomes.foldl wait_collect_step ""

/-- `ThreadGraph::wait` (threadgraph.cpp lines 126-159) applied to the worker
outcomes: `none` when no worker faulted, otherwise `some` of the thrown
`std::runtime_error`'s message. -/
def threadgraph_wait (outcomes : List (Option String)) : Option String :=
  let msg := collect_exception_msgs outcomes
  if msg = "" then none else some ("Exception occurred in worker thread: " ++ msg)

/-- The graph-mutation operations of claim C6. -/
inductive GraphOp where
  | pushOp (p : Ptr)
  | dependOp (self other : Task)
  | precedeOp (self other : Task)
  | eraseDependOp (self other : Task)
  | erasePrecedeOp (self other : Task)
  | eraseOp (t : Task)
deriving DecidableEq, Repr

/-- Apply one operation, keeping the resulting state whether the call returned
normally or with an error (a raising call returns the state it had at the raising
statement). -/
def applyOp (g : ThreadGraph) : GraphOp → ThreadGraph
  | .pushOp p => (g.push p).1
  | .dependOp s o => { g with heap := (Task.depend g.heap s o).2 }
  | .precedeOp s o => { g with heap := (Task.precede g.heap s o).2 }
  | .eraseDependOp s o => { g with heap := Task.erase_depend g.heap s o }
  | .erasePrecedeOp s o => { g with heap := Task.erase_precede g.heap s o }
  | .eraseOp t => (g.erase t).1

/-- Apply a sequence of operations. -/
def applyOps (g : ThreadGraph) (ops : List GraphOp) : ThreadGraph :=
  ops.foldl applyOp g

/-- A pointer is non-null and allocated. -/
def ptrOk (h : Heap) (p : Ptr) : Prop :=
  ∃ j, p = some j ∧ (h.lookup j).isSome = true

/-- The heap well-formedness invariant: every edge pointer of every node is
non-null, allocated and duplicate-free, and the predecessor/successor relation
is symmetric (`b ∈ succ(a) ⇔ a ∈ pred(b)`). -/
def HeapWF (h : Heap) : Prop :=
  (∀ i n, h.lookup i = some n →
    n.predecessors.Nodup ∧ n.successors.Nodup ∧
    (∀ p ∈ n.predecessors, ptrOk h p) ∧ (∀ p ∈ n.successors, ptrOk h p)) ∧
  (∀ a na b nb, h.lookup a = some na → h.lookup b = some nb →
    (some b ∈ na.successors ↔ some a ∈ nb.predecessors))

/-! ## Heap lemmas -/

theorem Heap.lookup_cons (e : NodeId × Node) (es : Heap) (j : NodeId) :
    Heap.lookup (e :: es) j = if e.1 = j then some e.2 else Heap.lookup es j := rfl

theorem Heap.update_cons (e : NodeId × Node) (es : Heap) (i : NodeId) (f : Node → Node) :
    Heap.update (e :: es) i f = (if e.1 = i then (e.1, f e.2) else e) :: Heap.update es i f :=
  rfl

theorem Heap.eraseId_cons (e : NodeId × Node) (es : Heap) (i : NodeId) :
    Heap.eraseId (e :: es) i =
      if e.1 = i then Heap.eraseId es i else e :: Heap.eraseId es i := by
  by_cases hei : e.1 = i <;> simp [Heap.eraseId, List.filter_cons, hei]

theorem Heap.lookup_update (h : Heap) (i j : NodeId) (f : Node → Node) :
    (h.update i f).lookup j = if j = i then (h.lookup j).map f else h.lookup j := by
  induction h with
  | nil => by_cases hji : j = i <;> simp [Heap.update, Heap.lookup, hji]
  | cons e es ih =>
    rw [Heap.update_cons]
    by_cases hei : e.1 = i
    · subst hei
      by_cases hej : e.1 = j
      · subst hej
        simp [Heap.lookup_cons]
      · have hji : ¬ (j = e.1) := fun hc => hej hc.symm
        simp [Heap.lookup_cons, hej, hji, ih]
    · by_cases hej : e.1 = j
      · subst hej
        simp [Heap.lookup_cons, hei]
      · simp [Heap.lookup_cons, hei, hej, ih]

theorem Heap.keys_update (h : Heap) (i : NodeId) (f : Node → Node) :
    (h.update i f).map Prod.fst = h.map Prod.fst := by
  induction h with
  | nil => rfl
  | cons e es ih =>
    rw [Heap.update_cons]
    by_cases hei : e.1 = i <;> simp [hei, ih]

theorem Heap.lookup_eraseId (h : Heap) (i j : NodeId) :
    (h.eraseId i).lookup j = if j = i then none else h.lookup j := by
  induction h with
  | nil => by_cases hji : j = i <;> simp [Heap.eraseId, Heap.lookup, hji]
  | cons e es ih =>
    rw [Heap.eraseId_cons]
    by_cases hei : e.1 = i
    · subst hei
      by_cases hji : j = e.1
      · subst hji
        simp [ih]
      · have hej : ¬ (e.1 = j) := fun hc => hji hc.symm
        simp [Heap.lookup_cons, hej, hji, ih]
    · rw [if_neg hei]
      by_cases hej : e.1 = j
      · subst hej
        simp [Heap.lookup_cons, hei]
      · simp [Heap.lookup_cons, hej, ih]

/-! ## Claim theorems -/

/-- C10: `state()`, `predecessors_size()` and `successors_size()` on an empty
task handle dereference the null node pointer — in this total embedding they
have no defined result (`none`) — while `reset_state()`, `empty()` and the
iterator accessors guard against a null node and are defined on an empty
handle. -/
theorem c10_empty_handle_unguarded (h : Heap) :
    Task.state h ⟨none⟩ = none ∧
    Task.predecessors_size h ⟨none⟩ = none ∧
    Task.successors_size h ⟨none⟩ = none ∧
    Task.reset_state h ⟨none⟩ = h ∧
    Task.empty ⟨none⟩ = true ∧
    Task.begin_predecessors h ⟨none⟩ = some [] ∧
    Task.begin_successors h ⟨none⟩ = some [] :=
  ⟨rfl, rfl, rfl, rfl, rfl, rfl, rfl⟩

/-- A `depend` call whose `other` node already lists the caller among its
predecessors fails with the CYCLE error, leaving the heap unchanged. -/
theorem depend_reverse_cycle (h' : Heap) (a b : NodeId) (snode' : Node)
    (hne : ¬ ((some a : Ptr) = some b))
    (ha : h'.lookup a = some snode')
    (hmem : (some b : Ptr) ∈ snode'.predecessors) :
    Task.depend h' ⟨some b⟩ ⟨some a⟩ = (some cycleError, h') := by
  simp [Task.depend, hne, ha, hmem]

/-- C4: if `a.depend(b)` returned successfully, a subsequent `b.depend(a)` fails
with the CYCLE error (`AT_RUNTIME_ERROR("Circular dependency detected")`,
the error kind the specification names CYCLE) and leaves the heap — in
particular the predecessor and successor lists of both nodes — unchanged. -/
theorem c4_direct_cycle_rejection (h : Heap) (a b : NodeId)
    (hsucc : (Task.depend h ⟨some a⟩ ⟨some b⟩).1 = none) :
    Task.depend (Task.depend h ⟨some a⟩ ⟨some b⟩).2 ⟨some b⟩ ⟨some a⟩ =
      (some cycleError, (Task.depend h ⟨some a⟩ ⟨some b⟩).2) := by
  by_cases heq : (some b : Ptr) = some a
  · exfalso; simp [Task.depend, heq] at hsucc
  cases hb : h.lookup b with
  | none => exfalso; simp [Task.depend, heq, hb] at hsucc
  | some tnode =>
  by_cases hcyc : (some a : Ptr) ∈ tnode.predecessors
  · exfalso; simp [Task.depend, heq, hb, hcyc] at hsucc
  cases ha : h.lookup a with
  | none => exfalso; simp [Task.depend, heq, hb, hcyc, ha] at hsucc
  | some snode =>
  have hba : ¬ ((some a : Ptr) = some b) := fun hc => heq (hc ▸ rfl)
  have hab : a ≠ b := fun hc => heq (by rw [hc])
  have hset : ∃ snode', (Task.depend h ⟨some a⟩ ⟨some b⟩).2.lookup a = some snode' ∧
      (some b : Ptr) ∈ snode'.predecessors := by
    by_cases hd1 : (some b : Ptr) ∈ snode.predecessors
    · refine ⟨snode, ?_, hd1⟩
      by_cases hd2 : (some a : Ptr) ∈ tnode.successors <;>
        simp [Task.depend, heq, hb, hcyc, ha, hd1, hd2, Heap.lookup_update, hab]
    · refine ⟨{ snode with predecessors := snode.predecessors ++ [some b] }, ?_, by simp⟩
      by_cases hd2 : (some a : Ptr) ∈ tnode.successors <;>
        simp [Task.depend, heq, hb, hcyc, ha, hd1, hd2, Heap.lookup_update, hab]
  obtain ⟨snode', ha', hmem'⟩ := hset
  exact depend_reverse_cycle _ a b snode' hba ha' hmem'

/-- Witness for C4 at a concrete two-node heap. -/
theorem c4_witness :
    Task.depend
        (Task.depend [(1, ⟨.ready, [], []⟩), (2, ⟨.ready, [], []⟩)] ⟨some 1⟩ ⟨some 2⟩).2
        ⟨some 2⟩ ⟨some 1⟩ =
      (some cycleError,
        (Task.depend [(1, ⟨.ready, [], []⟩), (2, ⟨.ready, [], []⟩)] ⟨some 1⟩ ⟨some 2⟩).2) :=
  c4_direct_cycle_rejection [(1, ⟨.ready, [], []⟩), (2, ⟨.ready, [], []⟩)] 1 2 (by rfl)

/-- Counterexample for C5 as stated: with an empty *this* handle and a valid
*other* handle to a different node, `Task::depend` does not fail with
INVALID_ARGUMENT — only the *other* handle is null-checked (Task implementation
lines 13-14) and the call goes on to dereference the null `this->_node`
(line 21). -/
theorem c5_counterexample :
    (Task.depend [(1, ⟨.ready, [], []⟩)] ⟨none⟩ ⟨some 1⟩).1 = some AtErr.nullDeref ∧
    (Task.depend [(1, ⟨.ready, [], []⟩)] ⟨none⟩ ⟨some 1⟩).1.map AtErr.isInvalidArgument =
      some false := by
  constructor <;> rfl

/-- C5 as amended: `Task::depend(other)` fails with INVALID_ARGUMENT when the
*other* handle is empty or when *other* refers to the same node as *this*, and
in those cases no edge list of any node is modified; but when only the *this*
handle is empty (and *other* is a valid handle whose node's predecessor list
holds no null entry), the call dereferences the null `this` pointer — undefined
behaviour, not an INVALID_ARGUMENT failure — again without modifying any edge
list. -/
theorem c5_depend_invalid_cases (h : Heap) (self : Task) (tid : NodeId) (tn : Node) :
    (Task.depend h self ⟨none⟩ = (some (.invalidArgument "Task is not valid"), h)) ∧
    (self.node = some tid →
      Task.depend h self ⟨some tid⟩ =
        (some (.invalidArgument "Cannot set relation to itself"), h)) ∧
    (self.node = none → h.lookup tid = some tn → (none : Ptr) ∉ tn.predecessors →
      Task.depend h self ⟨some tid⟩ = (some .nullDeref, h)) := by
  refine ⟨rfl, ?_, ?_⟩
  · intro hself
    simp [Task.depend, hself]
  · intro hself htn hnone
    simp [Task.depend, hself, htn, hnone]

/-- Witness for C5's amended statement at a concrete heap. -/
theorem c5_witness :
    Task.depend [(1, ⟨.ready, [], []⟩)] ⟨none⟩ ⟨some 1⟩ =
      (some .nullDeref, [(1, ⟨.ready, [], []⟩)]) :=
  (c5_depend_invalid_cases [(1, ⟨.ready, [], []⟩)] ⟨none⟩ 1 ⟨.ready, [], []⟩).2.2 rfl rfl
    (by simp)

/-- C7: `push` fails with INVALID_ARGUMENT on a null node, a node whose state is
not READY, or a node already in the pool; fails with RUNTIME_ERROR while the
graph is executing; every failure leaves the graph (in particular its task pool)
unchanged; a successful push appends the node to the task pool and returns a
handle to it.  The checks happen in source order (null, executing, state,
duplicate). -/
theorem c7_push_contract (g : ThreadGraph) (nid : NodeId) (n : Node)
    (hn : g.heap.lookup nid = some n) :
    (g.push none =
      (g, .error (.invalidArgument "Node is null. A valid node must be provided."))) ∧
    (g.executingFlag = true →
      g.push (some nid) = (g, .error (.runtimeError "Cannot push tasks while executing."))) ∧
    (g.executingFlag = false → n.state ≠ .ready →
      g.push (some nid) = (g, .error (.invalidArgument
        "Node is already in EXECUTING or COMPLETE state. A valid node must be provided."))) ∧
    (g.executingFlag = false → n.state = .ready → nid ∈ g.taskPool →
      g.push (some nid) = (g, .error (.invalidArgument
        "Node is already in the graph. A valid node must be provided."))) ∧
    (g.executingFlag = false → n.state = .ready → nid ∉ g.taskPool →
      g.push (some nid) = ({ g with taskPool := g.taskPool ++ [nid] }, .ok ⟨some nid⟩)) := by
  refine ⟨rfl, ?_, ?_, ?_, ?_⟩
  · intro hexec; simp [ThreadGraph.push, hexec]
  · intro hexec hstate
    cases hs : n.state <;> simp_all [ThreadGraph.push, hn]
  · intro hexec hstate hmem
    simp [ThreadGraph.push, hexec, hn, hstate, hmem]
  · intro hexec hstate hmem
    simp [ThreadGraph.push, hexec, hn, hstate, hmem]

/-- Witness for C7: a successful push at a concrete graph. -/
theorem c7_witness :
    ThreadGraph.push ⟨[(1, ⟨.ready, [], []⟩)], [], [], false, false⟩ (some 1) =
      (⟨[(1, ⟨.ready, [], []⟩)], [1], [], false, false⟩, .ok ⟨some 1⟩) :=
  (c7_push_contract ⟨[(1, ⟨.ready, [], []⟩)], [], [], false, false⟩ 1 ⟨.ready, [], []⟩
    rfl).2.2.2.2 rfl rfl (by simp)

/-- The source's single remembered `exe` pair agrees with the claim's list of
remembered PENDING results: `exe` is always the most recent remembered one. -/
theorem trace_depend_loop_agree (h : Heap)
    (recurI recurS : NodeId → Option (TraceNodeState × NodeId))
    (hrec : ∀ pid, recurI pid = recurS pid) (avoids : List NodeId) (e : NodeId) :
    ∀ ps exe remembered, exe = remembered.getLast? →
      trace_depend_loop h recurI avoids e ps exe =
        trace_depend_loop_claim h recurS avoids e ps remembered := by
  intro ps
  induction ps with
  | nil =>
    intro exe remembered hrel
    rw [trace_depend_loop, trace_depend_loop_claim, hrel]
    cases remembered.getLast? <;> rfl
  | cons p ps ih =>
    intro exe remembered hrel
    cases p with
    | none =>
      rw [trace_depend_loop, trace_depend_loop_claim]
      exact ih exe remembered hrel
    | some pid =>
      rw [trace_depend_loop, trace_depend_loop_claim]
      by_cases hav : pid ∈ avoids
      · rw [if_pos hav, if_pos hav]
        exact ih exe remembered hrel
      · rw [if_neg hav, if_neg hav]
        cases hp : h.lookup pid with
        | none => rfl
        | some pn =>
          dsimp only []
          cases hst : pn.state with
          | ready =>
            rw [hrec pid]
            cases hr : recurS pid with
            | none => rfl
            | some br =>
              dsimp only []
              cases hbr : br.1 with
              | ready => rfl
              | pending =>
                exact ih (some br) (remembered ++ [br]) (by rw [List.getLast?_concat])
              | completed => exact ih exe remembered hrel
          | executing =>
            exact ih (some (.pending, pid)) (remembered ++ [(.pending, pid)])
              (by rw [List.getLast?_concat])
          | completed => exact ih exe remembered hrel

/-- C2: `trace_ready_depend(E, A)` behaves exactly as claim C2 describes it —
`(PENDING, E)` when E is EXECUTING, `(COMPLETED, E)` when E is COMPLETED, and
otherwise the predecessor iteration that returns the first recursive READY
result, else the most recently remembered PENDING result, else `(READY, E)`
(see `trace_ready_depend_claim`). -/
theorem c2_trace_ready_depend_matches_claim (h : Heap) (fuel : Nat) (e : NodeId)
    (avoids : List NodeId) :
    trace_ready_depend h fuel e avoids = trace_ready_depend_claim h fuel e avoids := by
  induction fuel generalizing e with
  | zero => rfl
  | succ fuel ih =>
    rw [trace_ready_depend, trace_ready_depend_claim]
    cases hl : h.lookup e with
    | none => rfl
    | some n =>
      dsimp only []
      cases hst : n.state with
      | executing => rfl
      | completed => rfl
      | ready =>
        exact trace_depend_loop_agree h _ _ (fun pid => ih pid) avoids e n.predecessors
          none [] rfl

/-- When no task before `t` in the pool is EXECUTING and `t` is, the scan of the
entry variant yields `t`. -/
theorem findExecuting_first (h : Heap) :
    ∀ l₁ t l₂ mt, (∀ u ∈ l₁, ∃ mu, h.lookup u = some mu ∧ mu.state ≠ .executing) →
      h.lookup t = some mt → mt.state = .executing →
      findExecuting h (l₁ ++ t :: l₂) = some (some t) := by
  intro l₁
  induction l₁ with
  | nil =>
    intro t l₂ mt h1 ht hs
    simp [findExecuting, ht, hs]
  | cons u l₁ ih =>
    intro t l₂ mt h1 ht hs
    obtain ⟨mu, hu, hne⟩ := h1 u (by simp)
    simp only [List.cons_append, findExecuting, hu]
    rw [if_neg hne]
    exact ih t l₂ mt (fun v hv => h1 v (by simp [hv])) ht hs

/-- When no task in the pool is EXECUTING, the scan finds nothing. -/
theorem findExecuting_none (h : Heap) :
    ∀ l, (∀ u ∈ l, ∃ mu, h.lookup u = some mu ∧ mu.state ≠ .executing) →
      findExecuting h l = some none := by
  intro l
  induction l with
  | nil => intro; rfl
  | cons u l ih =>
    intro h1
    obtain ⟨mu, hu, hne⟩ := h1 u (by simp)
    simp only [findExecuting, hu]
    rw [if_neg hne]
    exact ih fun v hv => h1 v (by simp [hv])

/-- C3: `trace_ready_node` with a null hint returns the result of
`trace_ready_depend` on the first ready-cache element when the cache is
non-empty; otherwise `(PENDING, t)` for the first task `t` in the pool whose
state is EXECUTING; otherwise `(COMPLETED, null)`. -/
theorem c3_trace_ready_node_null_hint (g : ThreadGraph) (fuel : Nat) :
    (∀ c cs, g.readyCache = c :: cs →
      trace_ready_node g fuel none =
        (trace_ready_depend g.heap fuel c []).map fun r => (r.1, some r.2)) ∧
    (g.readyCache = [] → ∀ l₁ t l₂ mt, g.taskPool = l₁ ++ t :: l₂ →
      (∀ u ∈ l₁, ∃ mu, g.heap.lookup u = some mu ∧ mu.state ≠ .executing) →
      g.heap.lookup t = some mt → mt.state = .executing →
      trace_ready_node g fuel none = some (.pending, some t)) ∧
    (g.readyCache = [] →
      (∀ u ∈ g.taskPool, ∃ mu, g.heap.lookup u = some mu ∧ mu.state ≠ .executing) →
      trace_ready_node g fuel none = some (.completed, none)) := by
  refine ⟨?_, ?_, ?_⟩
  · intro c cs hc
    simp [trace_ready_node, trace_ready_node_entry, hc]
  · intro hc l₁ t l₂ mt hpool h1 ht hs
    simp [trace_ready_node, trace_ready_node_entry, hc, hpool,
      findExecuting_first g.heap l₁ t l₂ mt h1 ht hs]
  · intro hc hall
    simp [trace_ready_node, trace_ready_node_entry, hc,
      findExecuting_none g.heap g.taskPool hall]

/-- Witness for C3: a one-task pool whose task is EXECUTING while the ready
cache is empty. -/
theorem c3_witness :
    trace_ready_node ⟨[(5, ⟨.executing, [], []⟩)], [5], [], true, false⟩ 0 none =
      some (.pending, some 5) :=
  (c3_trace_ready_node_null_hint ⟨[(5, ⟨.executing, [], []⟩)], [5], [], true, false⟩ 0).2.1
    rfl [] 5 [] ⟨.executing, [], []⟩ rfl (by simp) rfl rfl

/-- The collection loop only ever appends: the accumulator is a prefix of the
final collected string. -/
theorem wait_collect_grows (outcomes : List (Option String)) :
    ∀ acc : String, acc.data <+: (outcomes.foldl wait_collect_step acc).data := by
  induction outcomes with
  | nil => intro acc; exact List.prefix_refl _
  | cons o rest ih =>
    intro acc
    cases o with
    | none => exact ih acc
    | some m =>
      refine List.IsPrefix.trans ?_ (ih (acc ++ m ++ "\n"))
      rw [String.data_append, String.data_append, List.append_assoc]
      exact List.prefix_append _ _

/-- Every faulted worker's message is an infix of the collected string. -/
theorem wait_collect_contains (m : String) :
    ∀ (outcomes : List (Option String)) (acc : String), some m ∈ outcomes →
      m.data <:+: (outcomes.foldl wait_collect_step acc).data := by
  intro outcomes
  induction outcomes with
  | nil => intro acc hm; cases hm
  | cons o rest ih =>
    intro acc hm
    rcases List.mem_cons.mp hm with heq | hmem
    · subst heq
      refine List.IsInfix.trans ?_ (wait_collect_grows rest (acc ++ m ++ "\n")).isInfix
      rw [String.data_append, String.data_append]
      exact List.infix_append _ _ _
    · cases o with
      | none => exact ih acc hmem
      | some m' => exact ih (acc ++ m' ++ "\n") hmem

/-- If some worker faulted, the collected string is non-empty (each fault
appends at least its trailing newline). -/
theorem wait_collect_ne_nil (m : String) :
    ∀ (outcomes : List (Option String)) (acc : String), some m ∈ outcomes →
      (outcomes.foldl wait_collect_step acc).data ≠ [] := by
  intro outcomes
  induction outcomes with
  | nil => intro acc hm; cases hm
  | cons o rest ih =>
    intro acc hm hc
    rcases List.mem_cons.mp hm with heq | hmem
    · subst heq
      simp only [List.foldl_cons, wait_collect_step] at hc
      have hpre := wait_collect_grows rest (acc ++ m ++ "\n")
      have hlen := hpre.length_le
      rw [hc] at hlen
      have h1 : ("\n" : String).data.length = 1 := rfl
      simp [String.data_append, h1] at hlen
    · cases o with
      | none => exact ih acc hmem hc
      | some m' => exact ih (acc ++ m' ++ "\n") hmem hc

/-- If some worker faulted, `collect_exception_msgs` is not the empty string. -/
theorem wait_collect_ne_empty (m : String) (outcomes : List (Option String))
    (hm : some m ∈ outcomes) : collect_exception_msgs outcomes ≠ "" := by
  intro hc
  have hne := wait_collect_ne_nil m outcomes "" hm
  rw [show outcomes.foldl wait_collect_step "" = collect_exception_msgs outcomes from rfl,
    hc] at hne
  exact hne rfl

/-- If every worker completed normally, nothing is collected. -/
theorem wait_collect_all_none (outcomes : List (Option String)) :
    ∀ acc, (∀ o ∈ outcomes, o = none) → outcomes.foldl wait_collect_step acc = acc := by
  induction outcomes with
  | nil => intro acc _; rfl
  | cons o rest ih =>
    intro acc hall
    have ho : o = none := hall o (by simp)
    subst ho
    exact ih acc fun o' ho' => hall o' (by simp [ho'])

/-- C9: if one or more worker payloads raised, `wait` throws an error whose
message contains the message of every faulted worker's captured exception (all
of them are concatenated into it); if no worker faulted, `wait` returns
normally. -/
theorem c9_wait_propagates_all_messages (outcomes : List (Option String)) :
    (∀ m, some m ∈ outcomes → ∃ full, threadgraph_wait outcomes = some full ∧
      m.data <:+: full.data) ∧
    ((∀ o ∈ outcomes, o = none) → threadgraph_wait outcomes = none) := by
  constructor
  · intro m hm
    refine ⟨"Exception occurred in worker thread: " ++ collect_exception_msgs outcomes,
      ?_, ?_⟩
    · simp only [threadgraph_wait]
      rw [if_neg (wait_collect_ne_empty m outcomes hm)]
    · rw [String.data_append]
      exact (wait_collect_contains m outcomes "" hm).trans
        (List.suffix_append _ _).isInfix
  · intro hall
    simp only [threadgraph_wait]
    rw [if_pos]
    exact wait_collect_all_none outcomes "" hall

/-- Witness for C9: one faulted worker and one normal worker. -/
theorem c9_witness :
    ∃ full, threadgraph_wait [some "boom", none] = some full ∧
      ("boom" : String).data <:+: full.data :=
  (c9_wait_propagates_all_messages [some "boom", none]).1 "boom" (by simp)

/-- The predecessor loop never yields verdict COMPLETED (the remembered pair
always carries verdict PENDING, and the end of the loop yields it or READY). -/
theorem trace_depend_loop_verdict (h : Heap) (recur : NodeId → Option (TraceNodeState × NodeId))
    (avoids : List NodeId) (e : NodeId) :
    ∀ ps exe r, trace_depend_loop h recur avoids e ps exe = some r →
      (∀ s, exe = some s → s.1 = .pending) → r.1 ≠ .completed := by
  intro ps
  induction ps with
  | nil =>
    intro exe r hr hinv
    rw [trace_depend_loop] at hr
    injection hr with hr'
    subst hr'
    cases exe with
    | none => simp
    | some s =>
      rw [Option.getD_some, hinv s rfl]
      decide
  | cons p ps ih =>
    intro exe r hr hinv
    cases p with
    | none => exact ih exe r hr hinv
    | some pid =>
      rw [trace_depend_loop] at hr
      by_cases hav : pid ∈ avoids
      · rw [if_pos hav] at hr
        exact ih exe r hr hinv
      · rw [if_neg hav] at hr
        cases hp : h.lookup pid with
        | none => rw [hp] at hr; cases hr
        | some pn =>
          rw [hp] at hr
          dsimp only [] at hr
          cases hst : pn.state with
          | ready =>
            rw [hst] at hr
            dsimp only [] at hr
            cases hrec : recur pid with
            | none => rw [hrec] at hr; cases hr
            | some br =>
              rw [hrec] at hr
              dsimp only [] at hr
              cases hbr : br.1 with
              | ready =>
                rw [hbr] at hr
                dsimp only [] at hr
                injection hr with hr'
                subst hr'
                rw [hbr]
                decide
              | pending =>
                rw [hbr] at hr
                exact ih (some br) r hr fun s hs => by cases hs; exact hbr
              | completed =>
                rw [hbr] at hr
                exact ih exe r hr hinv
          | executing =>
            rw [hst] at hr
            exact ih (some (.pending, pid)) r hr fun s hs => by cases hs; rfl
          | completed =>
            rw [hst] at hr
            exact ih exe r hr hinv

/-- `trace_ready_depend` yields verdict COMPLETED only for an entry node whose
state is COMPLETED. -/
theorem trace_ready_depend_completed (h : Heap) (fuel : Nat) (e : NodeId)
    (avoids : List NodeId) (r : TraceNodeState × NodeId)
    (hr : trace_ready_depend h fuel e avoids = some r) (hc : r.1 = .completed) :
    ∃ n, h.lookup e = some n ∧ n.state = .completed := by
  cases fuel with
  | zero => cases hr
  | succ fuel =>
    rw [trace_ready_depend] at hr
    cases hl : h.lookup e with
    | none => rw [hl] at hr; cases hr
    | some n =>
      rw [hl] at hr
      dsimp only [] at hr
      cases hst : n.state with
      | executing =>
        rw [hst] at hr
        dsimp only [] at hr
        injection hr with hr'
        rw [← hr'] at hc
        cases hc
      | completed => exact ⟨n, rfl, hst⟩
      | ready =>
        rw [hst] at hr
        dsimp only [] at hr
        exact absurd hc
          (trace_depend_loop_verdict h _ avoids e n.predecessors none r hr
            fun s hs => by cases hs)

/-- Case analysis of the predecessor loop when it yields verdict READY: either
the result came from a recursion (and then, by the `hrecR` hypothesis, all of
its effective predecessors are COMPLETED), or the loop fell through with no
remembered PENDING — and then every effective predecessor in the scanned list
was COMPLETED. -/
theorem trace_depend_loop_ready (h : Heap) (recur : NodeId → Option (TraceNodeState × NodeId))
    (avoids : List NodeId) (e : NodeId)
    (hrecR : ∀ pid r, recur pid = some r → r.1 = .ready → allPredsCompleted h avoids r.2)
    (hrecC : ∀ pid r, recur pid = some r → r.1 = .completed →
      ∃ n, h.lookup pid = some n ∧ n.state = .completed) :
    ∀ ps exe x, trace_depend_loop h recur avoids e ps exe = some (.ready, x) →
      (∀ s, exe = some s → s.1 = .pending) →
      allPredsCompleted h avoids x ∨
        (x = e ∧ exe = none ∧ ∀ p ∈ ps, ∀ q, p = some q → q ∉ avoids →
          ∃ m, h.lookup q = some m ∧ m.state = .completed) := by
  intro ps
  induction ps with
  | nil =>
    intro exe x hr hinv
    rw [trace_depend_loop] at hr
    injection hr with hr'
    cases exe with
    | none =>
      right
      refine ⟨?_, rfl, fun p hp => absurd hp (List.not_mem_nil p)⟩
      have : (TraceNodeState.ready, e) = (TraceNodeState.ready, x) := hr'
      exact ((Prod.mk.injEq _ _ _ _).mp this).2.symm
    | some s =>
      exfalso
      have hs := hinv s rfl
      rw [Option.getD_some] at hr'
      rw [hr'] at hs
      cases hs
  | cons p ps ih =>
    intro exe x hr hinv
    cases p with
    | none =>
      rcases ih exe x hr hinv with hL | ⟨hxe, hexe, hall⟩
      · exact Or.inl hL
      · refine Or.inr ⟨hxe, hexe, fun p hp q hq hqa => ?_⟩
        rcases List.mem_cons.mp hp with rfl | hp'
        · cases hq
        · exact hall p hp' q hq hqa
    | some pid =>
      rw [trace_depend_loop] at hr
      by_cases hav : pid ∈ avoids
      · rw [if_pos hav] at hr
        rcases ih exe x hr hinv with hL | ⟨hxe, hexe, hall⟩
        · exact Or.inl hL
        · refine Or.inr ⟨hxe, hexe, fun p hp q hq hqa => ?_⟩
          rcases List.mem_cons.mp hp with rfl | hp'
          · injection hq with hq'; subst hq'; exact absurd hav hqa
          · exact hall p hp' q hq hqa
      · rw [if_neg hav] at hr
        cases hp : h.lookup pid with
        | none => rw [hp] at hr; cases hr
        | some pn =>
          rw [hp] at hr
          dsimp only [] at hr
          cases hst : pn.state with
          | ready =>
            rw [hst] at hr
            dsimp only [] at hr
            cases hrec : recur pid with
            | none => rw [hrec] at hr; cases hr
            | some br =>
              rw [hrec] at hr
              dsimp only [] at hr
              cases hbr : br.1 with
              | ready =>
                rw [hbr] at hr
                dsimp only [] at hr
                injection hr with hr'
                left
                have hbx : br.2 = x := (Prod.mk.injEq _ _ _ _).mp (hbr ▸ hr') |>.2
                rw [← hbx]
                exact hrecR pid br hrec hbr
              | pending =>
                rw [hbr] at hr
                rcases ih (some br) x hr (fun s hs => by cases hs; exact hbr) with
                  hL | ⟨_, hexe, _⟩
                · exact Or.inl hL
                · cases hexe
              | completed =>
                exfalso
                obtain ⟨n', hn', hc'⟩ := hrecC pid br hrec hbr
                rw [hp] at hn'
                injection hn' with hn''
                rw [← hn''] at hc'
                rw [hst] at hc'
                cases hc'
          | executing =>
            rw [hst] at hr
            rcases ih (some (.pending, pid)) x hr (fun s hs => by cases hs; rfl) with
              hL | ⟨_, hexe, _⟩
            · exact Or.inl hL
            · cases hexe
          | completed =>
            rw [hst] at hr
            rcases ih exe x hr hinv with hL | ⟨hxe, hexe, hall⟩
            · exact Or.inl hL
            · refine Or.inr ⟨hxe, hexe, fun p hpmem q hq hqa => ?_⟩
              rcases List.mem_cons.mp hpmem with rfl | hp'
              · injection hq with hq'; subst hq'; exact ⟨pn, hp, hst⟩
              · exact hall p hp' q hq hqa

/-- Whenever `trace_ready_depend` yields verdict READY for a node `x`, every
non-null predecessor of `x` outside the avoid set is COMPLETED (threadgraph.cpp
lines 266-296: the READY verdict is produced only after scanning all
predecessors without remembering a PENDING one). -/
theorem trace_ready_depend_ready_preds (h : Heap) :
    ∀ (fuel : Nat) (e : NodeId) (avoids : List NodeId) (x : NodeId),
      trace_ready_depend h fuel e avoids = some (.ready, x) →
      allPredsCompleted h avoids x := by
  intro fuel
  induction fuel with
  | zero => intro e avoids x hr; cases hr
  | succ fuel ih =>
    intro e avoids x hr
    rw [trace_ready_depend] at hr
    cases hl : h.lookup e with
    | none => rw [hl] at hr; cases hr
    | some n =>
      rw [hl] at hr
      dsimp only [] at hr
      cases hst : n.state with
      | executing =>
        rw [hst] at hr
        dsimp only [] at hr
        injection hr with hr'
        cases (Prod.mk.injEq _ _ _ _).mp hr' |>.1
      | completed =>
        rw [hst] at hr
        dsimp only [] at hr
        injection hr with hr'
        cases (Prod.mk.injEq _ _ _ _).mp hr' |>.1
      | ready =>
        rw [hst] at hr
        dsimp only [] at hr
        have hloop := trace_depend_loop_ready h _ avoids e
          (fun pid r hrec hready => by
            obtain ⟨rv, rx⟩ := r
            cases hready
            exact ih pid avoids rx hrec)
          (fun pid r hrec hcomp =>
            trace_ready_depend_completed h fuel pid avoids r hrec hcomp)
          n.predecessors none x hr (fun s hs => by cases hs)
        rcases hloop with hL | ⟨hxe, _, hall⟩
        · exact hL
        · subst hxe
          intro n' hn' p hp q hq hqa
          rw [hl] at hn'
          injection hn' with hn''
          subst hn''
          exact hall p hp q hq hqa

/-- A READY result of the EXECUTING-hint successor scan comes from a
`trace_ready_depend` call with an empty avoid set, so all its effective
predecessors are COMPLETED. -/
theorem succ_scan_ready (h : Heap) (fuel : Nat) :
    ∀ ss r, succ_scan h fuel ss = some (some r) →
      r.1 = .ready ∧ allPredsCompleted h [] r.2 := by
  intro ss
  induction ss with
  | nil => intro r hr; injection hr with hr'; cases hr'
  | cons p ps ih =>
    intro r hr
    cases p with
    | none => cases hr
    | some sid =>
      rw [succ_scan] at hr
      cases hl : h.lookup sid with
      | none => rw [hl] at hr; cases hr
      | some sn =>
        rw [hl] at hr
        dsimp only [] at hr
        by_cases hst : sn.state = .ready
        · rw [if_pos hst] at hr
          cases htr : trace_ready_depend h fuel sid [] with
          | none => rw [htr] at hr; cases hr
          | some tr =>
            obtain ⟨tv, tx⟩ := tr
            rw [htr] at hr
            dsimp only [] at hr
            by_cases hv : (tv, tx).1 = TraceNodeState.ready
            · rw [if_pos hv] at hr
              injection hr with hr'
              injection hr' with hr''
              subst hr''
              dsimp only [] at hv
              subst hv
              exact ⟨rfl, trace_ready_depend_ready_preds h fuel sid [] tx htr⟩
            · rw [if_neg hv] at hr
              exact ih r hr
        · rw [if_neg hst] at hr
          exact ih r hr

/-- The COMPLETED-hint successor scan: a returned (inl) result is a READY
`trace_ready_depend` result with an empty avoid set, and a remembered delay is
always a PENDING pair. -/
theorem succ_scan_delay_cases (h : Heap) (fuel : Nat) :
    ∀ ss delay res, succ_scan_delay h fuel ss delay = some res →
      (∀ d, delay = some d → d.1 = .pending) →
      (∀ r, res = .inl r → r.1 = .ready ∧ allPredsCompleted h [] r.2) ∧
      (∀ d, res = .inr (some d) → d.1 = .pending) := by
  intro ss
  induction ss with
  | nil =>
    intro delay res hr hinv
    injection hr with hr'
    subst hr'
    refine ⟨fun r hres => (by cases hres), fun d hres => ?_⟩
    injection hres with h'
    exact hinv d h'
  | cons p ps ih =>
    intro delay res hr hinv
    cases p with
    | none => cases hr
    | some sid =>
      rw [succ_scan_delay] at hr
      cases hl : h.lookup sid with
      | none => rw [hl] at hr; cases hr
      | some sn =>
        rw [hl] at hr
        dsimp only [] at hr
        by_cases hst : sn.state = .ready
        · rw [if_pos hst] at hr
          cases htr : trace_ready_depend h fuel sid [] with
          | none => rw [htr] at hr; cases hr
          | some tr =>
            obtain ⟨tv, tx⟩ := tr
            rw [htr] at hr
            dsimp only [] at hr
            by_cases hv : (tv, tx).1 = TraceNodeState.ready
            · rw [if_pos hv] at hr
              injection hr with hr'
              subst hr'
              dsimp only [] at hv
              subst hv
              refine ⟨fun r hres => ?_, fun d hres => by cases hres⟩
              injection hres with hres'
              subst hres'
              exact ⟨rfl, trace_ready_depend_ready_preds h fuel sid [] tx htr⟩
            · rw [if_neg hv] at hr
              dsimp only [] at hv
              by_cases hp : tv = TraceNodeState.pending
              · rw [if_pos (by simpa using hp)] at hr
                exact ih (some (tv, tx)) res hr fun d hd => by
                  injection hd with hd'; rw [← hd']; exact hp
              · rw [if_neg (by simpa using hp)] at hr
                exact ih delay res hr hinv
        · rw [if_neg hst] at hr
          exact ih delay res hr hinv

/-- A READY result of the entry variant names a node whose effective
predecessors are all COMPLETED (it can only come from the ready-cache
`trace_ready_depend` call with an empty avoid set). -/
theorem trace_ready_node_entry_ready (g : ThreadGraph) (fuel : Nat) (p : Ptr)
    (hr : trace_ready_node_entry g fuel = some (.ready, p)) :
    ∃ x, p = some x ∧ allPredsCompleted g.heap [] x := by
  rw [trace_ready_node_entry] at hr
  cases hc : g.readyCache with
  | cons c cs =>
    rw [hc] at hr
    dsimp only [] at hr
    cases htr : trace_ready_depend g.heap fuel c [] with
    | none => rw [htr] at hr; cases hr
    | some tr =>
      obtain ⟨tv, tx⟩ := tr
      rw [htr] at hr
      dsimp only [Option.map] at hr
      injection hr with hr'
      have h1 := ((Prod.mk.injEq _ _ _ _).mp hr').1
      have h2 := ((Prod.mk.injEq _ _ _ _).mp hr').2
      subst h1
      exact ⟨tx, h2.symm, trace_ready_depend_ready_preds g.heap fuel c [] tx htr⟩
  | nil =>
    rw [hc] at hr
    dsimp only [] at hr
    cases hf : findExecuting g.heap g.taskPool with
    | none => rw [hf] at hr; cases hr
    | some o =>
      cases o with
      | some t =>
        rw [hf] at hr
        dsimp only [] at hr
        injection hr with hr'
        cases ((Prod.mk.injEq _ _ _ _).mp hr').1
      | none =>
        rw [hf] at hr
        dsimp only [] at hr
        injection hr with hr'
        cases ((Prod.mk.injEq _ _ _ _).mp hr').1

/-- Whenever `trace_ready_node` yields verdict READY, the returned pointer is a
non-null node whose non-null predecessors are all COMPLETED: every READY
result of every branch of `trace_ready_node` originates from a
`trace_ready_depend` call with an empty avoid set. -/
theorem trace_ready_node_ready_preds (g : ThreadGraph) (fuel : Nat) (entry : Ptr) (p : Ptr)
    (hr : trace_ready_node g fuel entry = some (.ready, p)) :
    ∃ x, p = some x ∧ allPredsCompleted g.heap [] x := by
  cases entry with
  | none => exact trace_ready_node_entry_ready g fuel p hr
  | some e =>
    rw [trace_ready_node] at hr
    cases hl : g.heap.lookup e with
    | none => rw [hl] at hr; cases hr
    | some n =>
      rw [hl] at hr
      dsimp only [] at hr
      cases hst : n.state with
      | executing =>
        rw [hst] at hr
        dsimp only [] at hr
        cases hs : succ_scan g.heap fuel n.successors with
        | none => rw [hs] at hr; cases hr
        | some o =>
          cases o with
          | some r =>
            rw [hs] at hr
            dsimp only [] at hr
            injection hr with hr'
            have h2 := ((Prod.mk.injEq _ _ _ _).mp hr').2
            obtain ⟨_, hall⟩ := succ_scan_ready g.heap fuel n.successors r hs
            exact ⟨r.2, h2.symm, hall⟩
          | none =>
            rw [hs] at hr
            dsimp only [] at hr
            cases he : trace_ready_node_entry g fuel with
            | none => rw [he] at hr; cases hr
            | some nr =>
              rw [he] at hr
              dsimp only [] at hr
              by_cases hnr : nr.1 = .ready
              · rw [if_pos hnr] at hr
                injection hr with hr'
                subst hr'
                exact trace_ready_node_entry_ready g fuel p he
              · rw [if_neg hnr] at hr
                injection hr with hr'
                cases ((Prod.mk.injEq _ _ _ _).mp hr').1
      | ready =>
        rw [hst] at hr
        dsimp only [] at hr
        cases hrd : trace_ready_depend g.heap fuel e [] with
        | none => rw [hrd] at hr; cases hr
        | some rd =>
          obtain ⟨rv, rx⟩ := rd
          rw [hrd] at hr
          dsimp only [] at hr
          cases rv with
          | ready =>
            rw [if_pos rfl] at hr
            injection hr with hr'
            have h2 := ((Prod.mk.injEq _ _ _ _).mp hr').2
            exact ⟨rx, h2.symm, trace_ready_depend_ready_preds g.heap fuel e [] rx hrd⟩
          | pending =>
            rw [if_neg (by decide), if_pos rfl] at hr
            cases he : trace_ready_node_entry g fuel with
            | none => rw [he] at hr; cases hr
            | some nr =>
              rw [he] at hr
              dsimp only [] at hr
              by_cases hnr : nr.1 = .ready
              · rw [if_pos hnr] at hr
                injection hr with hr'
                subst hr'
                exact trace_ready_node_entry_ready g fuel p he
              · rw [if_neg hnr] at hr
                injection hr with hr'
                cases ((Prod.mk.injEq _ _ _ _).mp hr').1
          | completed =>
            rw [if_neg (by decide), if_neg (by decide)] at hr
            injection hr with hr'
            cases ((Prod.mk.injEq _ _ _ _).mp hr').1
      | completed =>
        rw [hst] at hr
        dsimp only [] at hr
        cases hs : succ_scan_delay g.heap fuel n.successors none with
        | none => rw [hs] at hr; cases hr
        | some res =>
          have hcases := succ_scan_delay_cases g.heap fuel n.successors none res hs
            (fun d hd => by cases hd)
          cases res with
          | inl r =>
            rw [hs] at hr
            dsimp only [] at hr
            injection hr with hr'
            have h2 := ((Prod.mk.injEq _ _ _ _).mp hr').2
            obtain ⟨_, hall⟩ := hcases.1 r rfl
            exact ⟨r.2, h2.symm, hall⟩
          | inr delay =>
            rw [hs] at hr
            dsimp only [] at hr
            cases he : trace_ready_node_entry g fuel with
            | none => rw [he] at hr; cases hr
            | some nr =>
              rw [he] at hr
              dsimp only [] at hr
              by_cases hnr : nr.1 = .ready
              · rw [if_pos hnr] at hr
                injection hr with hr'
                subst hr'
                exact trace_ready_node_entry_ready g fuel p he
              · rw [if_neg hnr] at hr
                cases delay with
                | some d =>
                  dsimp only [] at hr
                  injection hr with hr'
                  have h1 := ((Prod.mk.injEq _ _ _ _).mp hr').1
                  have hd := hcases.2 d rfl
                  rw [hd] at h1
                  cases h1
                | none =>
                  dsimp only [] at hr
                  by_cases hp : nr.1 = .pending
                  · rw [if_pos hp] at hr
                    injection hr with hr'
                    rw [hr'] at hp
                    cases hp
                  · rw [if_neg hp] at hr
                    injection hr with hr'
                    cases ((Prod.mk.injEq _ _ _ _).mp hr').1

/-- Worker steps only change node states and the ready cache, never edges. -/
theorem stepRel_edges (fuel : Nat) (g : ThreadGraph) (l : StepLabel) (g' : ThreadGraph)
    (hstep : stepRel fuel g l g') (i : NodeId) : edgesAt g' i = edgesAt g i := by
  cases l with
  | claimStep hint nid =>
    obtain ⟨_, rfl⟩ := hstep
    rw [edgesAt, edgesAt, ThreadGraph.claimNode]
    dsimp only []
    rw [Heap.lookup_update]
    by_cases hin : i = nid
    · rw [if_pos hin]
      cases g.heap.lookup i <;> rfl
    · rw [if_neg hin]
  | completeStep nid =>
    obtain ⟨_, rfl⟩ := hstep
    rw [edgesAt, edgesAt, ThreadGraph.completeNode]
    dsimp only []
    rw [Heap.lookup_update]
    by_cases hin : i = nid
    · rw [if_pos hin]
      cases g.heap.lookup i <;> rfl
    · rw [if_neg hin]

/-- Along a worker run, every node's edge lists stay what they were at the
start. -/
theorem run_edges (fuel n : Nat) (f : Nat → ThreadGraph) (lab : Nat → StepLabel)
    (hrun : ∀ i, i < n → stepRel fuel (f i) (lab i) (f (i + 1))) :
    ∀ j, j ≤ n → ∀ i, edgesAt (f j) i = edgesAt (f 0) i := by
  intro j
  induction j with
  | zero => intro _ _; rfl
  | succ j ih =>
    intro hj i
    rw [stepRel_edges fuel (f j) (lab j) (f (j + 1)) (hrun j (by omega)) i]
    exact ih (by omega) i

/-- If a node is COMPLETED at time `j` but was not COMPLETED at time 0, some
earlier step is the `completeStep` of that node — only `completeStep` ever sets
a state to COMPLETED (`claimStep` sets it to EXECUTING). -/
theorem completion_step_exists (fuel n : Nat) (f : Nat → ThreadGraph) (lab : Nat → StepLabel)
    (hrun : ∀ i, i < n → stepRel fuel (f i) (lab i) (f (i + 1))) (P : NodeId) :
    ∀ j, j ≤ n →
      (∃ m, (f j).heap.lookup P = some m ∧ m.state = .completed) →
      (∀ m0, (f 0).heap.lookup P = some m0 → m0.state ≠ .completed) →
      ∃ k, k < j ∧ lab k = .completeStep P := by
  intro j
  induction j with
  | zero =>
    intro _ hcomp hinit
    obtain ⟨m, hm, hms⟩ := hcomp
    exact absurd hms (hinit m hm)
  | succ j ih =>
    intro hj hcomp hinit
    by_cases hprev : ∃ m, (f j).heap.lookup P = some m ∧ m.state = .completed
    · obtain ⟨k, hk, hl⟩ := ih (by omega) hprev hinit
      exact ⟨k, by omega, hl⟩
    · have hstep := hrun j (by omega)
      obtain ⟨m, hm, hms⟩ := hcomp
      cases hlab : lab j with
      | claimStep hint nid =>
        exfalso
        rw [hlab] at hstep
        obtain ⟨_, hg⟩ := hstep
        rw [hg] at hm
        rw [ThreadGraph.claimNode] at hm
        dsimp only [] at hm
        rw [Heap.lookup_update] at hm
        by_cases hPn : P = nid
        · rw [if_pos hPn] at hm
          cases hl' : (f j).heap.lookup P with
          | none => rw [hl'] at hm; cases hm
          | some m0 =>
            rw [hl'] at hm
            injection hm with hm'
            rw [← hm'] at hms
            cases hms
        · rw [if_neg hPn] at hm
          exact hprev ⟨m, hm, hms⟩
      | completeStep nid =>
        rw [hlab] at hstep
        obtain ⟨_, hg⟩ := hstep
        by_cases hPn : P = nid
        · exact ⟨j, by omega, by rw [hlab, hPn]⟩
        · exfalso
          rw [hg] at hm
          rw [ThreadGraph.completeNode] at hm
          dsimp only [] at hm
          rw [Heap.lookup_update, if_neg hPn] at hm
          exact hprev ⟨m, hm, hms⟩

/-- C1: along any worker run from an all-READY graph, a node S is marked
EXECUTING (a `claimStep`, which requires the trace algorithm to have returned
verdict READY for S) only at a moment when every one of its predecessors is
COMPLETED; consequently, for every edge P→S, the step completing P happens
strictly before the step starting S. -/
theorem c1_dependency_respect (fuel n : Nat) (f : Nat → ThreadGraph) (lab : Nat → StepLabel)
    (hrun : ∀ i, i < n → stepRel fuel (f i) (lab i) (f (i + 1)))
    (hinit : ∀ i m, (f 0).heap.lookup i = some m → m.state = .ready)
    (j : Nat) (hj : j < n) (hint : Ptr) (S : NodeId) (hlab : lab j = .claimStep hint S)
    (P : NodeId) (nS : Node) (hS : (f 0).heap.lookup S = some nS)
    (hPS : some P ∈ nS.predecessors) :
    (∃ mP, (f j).heap.lookup P = some mP ∧ mP.state = .completed) ∧
    (∃ k, k < j ∧ lab k = .completeStep P) := by
  have hstep := hrun j hj
  rw [hlab] at hstep
  obtain ⟨htr, _⟩ := hstep
  obtain ⟨x, hx, hall⟩ := trace_ready_node_ready_preds (f j) fuel hint (some S) htr
  injection hx with hx'
  subst hx'
  have hedge := run_edges fuel n f lab hrun j (le_of_lt hj) S
  rw [edgesAt, edgesAt, hS] at hedge
  cases hSj : (f j).heap.lookup S with
  | none => rw [hSj] at hedge; cases hedge
  | some nS' =>
    rw [hSj] at hedge
    injection hedge with hedge'
    have hpreds : nS'.predecessors = nS.predecessors :=
      ((Prod.mk.injEq _ _ _ _).mp hedge').1
    have hcomp : ∃ mP, (f j).heap.lookup P = some mP ∧ mP.state = .completed := by
      have := hall nS' hSj (some P) (by rw [hpreds]; exact hPS) P rfl (by simp)
      exact this
    refine ⟨hcomp, ?_⟩
    apply completion_step_exists fuel n f lab hrun P j (le_of_lt hj) hcomp
    intro m0 hm0 hc0
    rw [hinit P m0 hm0] at hc0
    cases hc0

/-- Witness for C1: a two-node chain 1 → 2 executed by one worker in three
steps (claim 1, complete 1, claim 2). -/
theorem c1_witness :
    (∃ mP,
      ((fun i =>
        [(⟨[(1, ⟨.ready, [], [some 2]⟩), (2, ⟨.ready, [some 1], []⟩)],
            [1, 2], [1, 2], true, false⟩ : ThreadGraph),
          ⟨[(1, ⟨.executing, [], [some 2]⟩), (2, ⟨.ready, [some 1], []⟩)],
            [1, 2], [2], true, false⟩,
          ⟨[(1, ⟨.completed, [], [some 2]⟩), (2, ⟨.ready, [some 1], []⟩)],
            [1, 2], [2], true, false⟩,
          ⟨[(1, ⟨.completed, [], [some 2]⟩), (2, ⟨.executing, [some 1], []⟩)],
            [1, 2], [], true, false⟩].getD i
          (⟨[], [], [], false, false⟩ : ThreadGraph)) 2).heap.lookup 1 = some mP ∧
      mP.state = .completed) ∧
    (∃ k, k < 2 ∧
      (fun i =>
        [StepLabel.claimStep none 1, .completeStep 1, .claimStep none 2].getD i
          (.completeStep 0)) k = .completeStep 1) := by
  apply c1_dependency_respect 1 3
    (fun i =>
      [(⟨[(1, ⟨.ready, [], [some 2]⟩), (2, ⟨.ready, [some 1], []⟩)],
          [1, 2], [1, 2], true, false⟩ : ThreadGraph),
        ⟨[(1, ⟨.executing, [], [some 2]⟩), (2, ⟨.ready, [some 1], []⟩)],
          [1, 2], [2], true, false⟩,
        ⟨[(1, ⟨.completed, [], [some 2]⟩), (2, ⟨.ready, [some 1], []⟩)],
          [1, 2], [2], true, false⟩,
        ⟨[(1, ⟨.completed, [], [some 2]⟩), (2, ⟨.executing, [some 1], []⟩)],
          [1, 2], [], true, false⟩].getD i
        (⟨[], [], [], false, false⟩ : ThreadGraph))
    (fun i =>
      [StepLabel.claimStep none 1, .completeStep 1, .claimStep none 2].getD i
        (.completeStep 0))
    ?hrun ?hinit 2 (by omega) none 2 rfl 1 ⟨.ready, [some 1], []⟩ ?hS ?hPS
  case hrun =>
    intro i hi
    interval_cases i
    · exact ⟨by decide, by decide⟩
    · exact ⟨⟨⟨.executing, [], [some 2]⟩, by decide, rfl⟩, by decide⟩
    · exact ⟨by decide, by decide⟩
  case hinit =>
    intro i m hm
    simp only [List.getD, Heap.lookup] at hm
    split_ifs at hm <;> injection hm with hm' <;> rw [← hm']
  case hS => decide
  case hPS => decide

/-! ## Heap well-formedness preservation -/

theorem Heap.isSome_update (h : Heap) (i j : NodeId) (f : Node → Node) :
    ((h.update i f).lookup j).isSome = (h.lookup j).isSome := by
  rw [Heap.lookup_update]
  by_cases hji : j = i
  · rw [if_pos hji]; cases h.lookup j <;> rfl
  · rw [if_neg hji]

theorem ptrOk_congr (h h' : Heap)
    (hdom : ∀ j, (h'.lookup j).isSome = (h.lookup j).isSome) (p : Ptr)
    (hp : ptrOk h p) : ptrOk h' p := by
  obtain ⟨j, rfl, hj⟩ := hp
  exact ⟨j, rfl, by rw [hdom]; exact hj⟩

theorem nodup_append_singleton {l : List Ptr} {a : Ptr} (hl : l.Nodup) (ha : a ∉ l) :
    (l ++ [a]).Nodup := by
  rw [List.nodup_append]
  refine ⟨hl, List.nodup_singleton a, ?_⟩
  simp [List.disjoint_singleton, ha]

/-- Adding the edge `tid → sid` (predecessor `tid` appended to node `sid`,
successor `sid` appended to node `tid`) preserves the heap invariant, provided
neither half of the edge was present (the source's duplicate guards). -/
theorem wf_add_edge (h : Heap) (sid tid : NodeId) (snode tnode : Node)
    (hls : h.lookup sid = some snode) (hlt : h.lookup tid = some tnode)
    (hne : tid ≠ sid)
    (hc1 : (some tid : Ptr) ∉ snode.predecessors)
    (hc2 : (some sid : Ptr) ∉ tnode.successors)
    (hwf : HeapWF h) :
    HeapWF
      ((h.update sid fun n => { n with predecessors := n.predecessors ++ [some tid] }).update
        tid fun n => { n with successors := n.successors ++ [some sid] }) := by
  obtain ⟨hnodes, hsymm⟩ := hwf
  have hlook : ∀ x,
      ((h.update sid fun n =>
          { n with predecessors := n.predecessors ++ [some tid] }).update
        tid fun n => { n with successors := n.successors ++ [some sid] }).lookup x =
      if x = tid then
        (h.lookup x).map fun n => { n with successors := n.successors ++ [some sid] }
      else if x = sid then
        (h.lookup x).map fun n => { n with predecessors := n.predecessors ++ [some tid] }
      else h.lookup x := by
    intro x
    simp only [Heap.lookup_update]
    split_ifs with hxt hxs
    · exact absurd (hxt.symm.trans hxs) hne
    · rfl
    · rfl
    · rfl
  have hdom : ∀ j,
      (((h.update sid fun n =>
          { n with predecessors := n.predecessors ++ [some tid] }).update
        tid fun n => { n with successors := n.successors ++ [some sid] }).lookup j).isSome =
      (h.lookup j).isSome := by
    intro j
    rw [hlook]
    split_ifs <;> cases h.lookup j <;> rfl
  have hext : ∀ x nx,
      ((h.update sid fun n =>
          { n with predecessors := n.predecessors ++ [some tid] }).update
        tid fun n => { n with successors := n.successors ++ [some sid] }).lookup x = some nx →
      ∃ nx0, h.lookup x = some nx0 ∧
        nx.successors = nx0.successors ++ (if x = tid then [some sid] else []) ∧
        nx.predecessors = nx0.predecessors ++ (if x = sid then [some tid] else []) := by
    intro x nx hx
    rw [hlook] at hx
    split_ifs at hx with hxt hxs
    · obtain ⟨nx0, hnx0, hfx⟩ := Option.map_eq_some'.mp hx
      have hxs : ¬ (x = sid) := fun hc => hne (hxt.symm.trans hc)
      refine ⟨nx0, hnx0, ?_, ?_⟩
      · rw [← hfx, if_pos hxt]
      · rw [← hfx, if_neg hxs, List.append_nil]
    · obtain ⟨nx0, hnx0, hfx⟩ := Option.map_eq_some'.mp hx
      refine ⟨nx0, hnx0, ?_, ?_⟩
      · rw [← hfx, if_neg hxt, List.append_nil]
      · rw [← hfx, if_pos hxs]
    · exact ⟨nx, hx, by rw [if_neg hxt, List.append_nil],
        by rw [if_neg hxs, List.append_nil]⟩
  constructor
  · intro i n hn
    obtain ⟨n0, hn0, hsucc, hpred⟩ := hext i n hn
    obtain ⟨hpn, hsn, hpo, hso⟩ := hnodes i n0 hn0
    refine ⟨?_, ?_, ?_, ?_⟩
    · rw [hpred]
      split_ifs with his
      · subst his
        rw [hn0] at hls
        injection hls with h'
        subst h'
        exact nodup_append_singleton hpn hc1
      · rw [List.append_nil]; exact hpn
    · rw [hsucc]
      split_ifs with hit
      · subst hit
        rw [hn0] at hlt
        injection hlt with h'
        subst h'
        exact nodup_append_singleton hsn hc2
      · rw [List.append_nil]; exact hsn
    · rw [hpred]
      intro p hp
      rcases List.mem_append.mp hp with hp' | hp'
      · exact ptrOk_congr h _ hdom p (hpo p hp')
      · split_ifs at hp' with his
        · rcases List.mem_singleton.mp hp' with rfl
          exact ⟨tid, rfl, by rw [hdom, hlt]; rfl⟩
        · cases hp'
    · rw [hsucc]
      intro p hp
      rcases List.mem_append.mp hp with hp' | hp'
      · exact ptrOk_congr h _ hdom p (hso p hp')
      · split_ifs at hp' with hit
        · rcases List.mem_singleton.mp hp' with rfl
          exact ⟨sid, rfl, by rw [hdom, hls]; rfl⟩
        · cases hp'
  · intro a na b nb hna hnb
    obtain ⟨na0, hna0, hsa, _⟩ := hext a na hna
    obtain ⟨nb0, hnb0, _, hpb⟩ := hext b nb hnb
    have base := hsymm a na0 b nb0 hna0 hnb0
    rw [hsa, hpb]
    by_cases hat : a = tid <;> by_cases hbs : b = sid
    · subst hat; subst hbs
      simp [List.mem_append]
    · subst hat
      simp [List.mem_append, hbs, base]
    · subst hbs
      simp [List.mem_append, hat, base]
    · simp [List.mem_append, hat, hbs, base]

/-- `Task::depend` preserves the heap invariant, whatever the outcome: every
failing path leaves the heap unchanged, and the successful path adds the edge
symmetrically on both sides (each half guarded by its duplicate check, which
agree under the invariant's symmetry). -/
theorem depend_preserves_wf (h : Heap) (self other : Task) (hwf : HeapWF h) :
    HeapWF (Task.depend h self other).2 := by
  rw [Task.depend]
  cases ho : other.node with
  | none => exact hwf
  | some tid =>
    dsimp only []
    by_cases heq : (some tid : Ptr) = self.node
    · rw [if_pos heq]; exact hwf
    · rw [if_neg heq]
      cases hlt : h.lookup tid with
      | none => exact hwf
      | some tnode =>
        dsimp only []
        by_cases hcyc : self.node ∈ tnode.predecessors
        · rw [if_pos hcyc]; exact hwf
        · rw [if_neg hcyc]
          cases hsn : self.node with
          | none => exact hwf
          | some sid =>
            dsimp only []
            cases hls : h.lookup sid with
            | none => exact hwf
            | some snode =>
              dsimp only []
              have hne : tid ≠ sid := fun hc => heq (by rw [hsn, hc])
              have hlink := hwf.2 tid tnode sid snode hlt hls
              by_cases hc1 : (some tid : Ptr) ∈ snode.predecessors
              · have hc2 : (some sid : Ptr) ∈ tnode.successors := hlink.mpr hc1
                rw [if_pos hc1, if_pos hc2]
                exact hwf
              · have hc2 : (some sid : Ptr) ∉ tnode.successors := fun hc =>
                  hc1 (hlink.mp hc)
                rw [if_neg hc1, if_neg hc2]
                exact wf_add_edge h sid tid snode tnode hls hlt hne hc1 hc2 hwf

/-- Removing the single edge `u → w` (every occurrence of `some u` filtered out
of `w`'s predecessors and every occurrence of `some w` filtered out of `u`'s
successors) preserves the heap invariant; stated against a lookup
characterization so that both `erase_depend` and `erase_precede` (which perform
the two updates in opposite orders) can use it. -/
theorem wf_remove_edge_of_ext (h h' : Heap) (u w : NodeId)
    (hdom : ∀ j, (h'.lookup j).isSome = (h.lookup j).isSome)
    (hext : ∀ x nx, h'.lookup x = some nx → ∃ nx0, h.lookup x = some nx0 ∧
      nx.predecessors = (if x = w then
        nx0.predecessors.filter fun q => !(q == some u) else nx0.predecessors) ∧
      nx.successors = (if x = u then
        nx0.successors.filter fun q => !(q == some w) else nx0.successors))
    (hwf : HeapWF h) : HeapWF h' := by
  obtain ⟨hnodes, hsymm⟩ := hwf
  constructor
  · intro i n hn
    obtain ⟨n0, hn0, hpred, hsucc⟩ := hext i n hn
    obtain ⟨hpn, hsn, hpo, hso⟩ := hnodes i n0 hn0
    refine ⟨?_, ?_, ?_, ?_⟩
    · rw [hpred]; split_ifs
      · exact hpn.filter _
      · exact hpn
    · rw [hsucc]; split_ifs
      · exact hsn.filter _
      · exact hsn
    · rw [hpred]
      intro p hp
      have hp' : p ∈ n0.predecessors := by
        split_ifs at hp
        · exact (List.mem_filter.mp hp).1
        · exact hp
      exact ptrOk_congr h h' hdom p (hpo p hp')
    · rw [hsucc]
      intro p hp
      have hp' : p ∈ n0.successors := by
        split_ifs at hp
        · exact (List.mem_filter.mp hp).1
        · exact hp
      exact ptrOk_congr h h' hdom p (hso p hp')
  · intro a na b nb hna hnb
    obtain ⟨na0, hna0, _, hsa⟩ := hext a na hna
    obtain ⟨nb0, hnb0, hpb, _⟩ := hext b nb hnb
    have base := hsymm a na0 b nb0 hna0 hnb0
    rw [hsa, hpb]
    by_cases hau : a = u <;> by_cases hbw : b = w
    · subst hau; subst hbw
      simp [List.mem_filter]
    · subst hau
      simp [List.mem_filter, hbw, base]
    · subst hbw
      simp [List.mem_filter, hau, base]
    · simp [hau, hbw, base]

/-- Lookup characterization of two successive single-node updates that touch
the predecessor list of node `w` and the successor list of node `u`
respectively, in either order. -/
theorem lookup_two_updates (h : Heap) (x1 x2 : NodeId) (f1 f2 : Node → Node) (j : NodeId) :
    ((h.update x1 f1).update x2 f2).lookup j =
      if j = x2 then
        (if j = x1 then (h.lookup j).map (fun n => f2 (f1 n)) else (h.lookup j).map f2)
      else if j = x1 then (h.lookup j).map f1
      else h.lookup j := by
  simp only [Heap.lookup_update]
  split_ifs <;> cases h.lookup j <;> rfl

/-- `Task::erase_depend` preserves the heap invariant. -/
theorem erase_depend_preserves_wf (h : Heap) (self other : Task) (hwf : HeapWF h) :
    HeapWF (Task.erase_depend h self other) := by
  rw [Task.erase_depend]
  cases hs : self.node with
  | none => exact hwf
  | some sid =>
    cases ho : other.node with
    | none => exact hwf
    | some oid =>
      dsimp only []
      refine wf_remove_edge_of_ext h _ oid sid ?_ ?_ hwf
      · intro j
        rw [lookup_two_updates]
        split_ifs <;> cases h.lookup j <;> rfl
      · intro x nx hx
        rw [lookup_two_updates] at hx
        split_ifs at hx with h1 h2 h3
        · obtain ⟨nx0, hnx0, hfx⟩ := Option.map_eq_some'.mp hx
          exact ⟨nx0, hnx0, by rw [← hfx, if_pos h2], by rw [← hfx, if_pos h1]⟩
        · obtain ⟨nx0, hnx0, hfx⟩ := Option.map_eq_some'.mp hx
          exact ⟨nx0, hnx0, by rw [← hfx, if_neg h2], by rw [← hfx, if_pos h1]⟩
        · obtain ⟨nx0, hnx0, hfx⟩ := Option.map_eq_some'.mp hx
          exact ⟨nx0, hnx0, by rw [← hfx, if_pos h3], by rw [← hfx, if_neg h1]⟩
        · exact ⟨nx, hx, by rw [if_neg h3], by rw [if_neg h1]⟩

/-- `Task::erase_precede` preserves the heap invariant. -/
theorem erase_precede_preserves_wf (h : Heap) (self other : Task) (hwf : HeapWF h) :
    HeapWF (Task.erase_precede h self other) := by
  rw [Task.erase_precede]
  cases hs : self.node with
  | none => exact hwf
  | some sid =>
    cases ho : other.node with
    | none => exact hwf
    | some oid =>
      dsimp only []
      refine wf_remove_edge_of_ext h _ sid oid ?_ ?_ hwf
      · intro j
        rw [lookup_two_updates]
        split_ifs <;> cases h.lookup j <;> rfl
      · intro x nx hx
        rw [lookup_two_updates] at hx
        split_ifs at hx with h1 h2 h3
        · obtain ⟨nx0, hnx0, hfx⟩ := Option.map_eq_some'.mp hx
          exact ⟨nx0, hnx0, by rw [← hfx, if_pos h1], by rw [← hfx, if_pos h2]⟩
        · obtain ⟨nx0, hnx0, hfx⟩ := Option.map_eq_some'.mp hx
          exact ⟨nx0, hnx0, by rw [← hfx, if_pos h1], by rw [← hfx, if_neg h2]⟩
        · obtain ⟨nx0, hnx0, hfx⟩ := Option.map_eq_some'.mp hx
          exact ⟨nx0, hnx0, by rw [← hfx, if_neg h1], by rw [← hfx, if_pos h3]⟩
        · exact ⟨nx, hx, by rw [if_neg h1], by rw [if_neg h3]⟩

theorem filter_self_idem (p : Ptr → Bool) (l : List Ptr) :
    (l.filter p).filter p = l.filter p := by
  rw [List.filter_filter]
  exact List.filter_congr fun a _ => by rw [Bool.and_self]

theorem mem_filter_ne (l : List Ptr) (b v : NodeId) (hbv : b ≠ v) :
    ((some b : Ptr) ∈ l.filter fun q => !(q == some v)) ↔ (some b : Ptr) ∈ l := by
  simp [List.mem_filter, hbv]

/-- Characterization of the unlink loops of `ThreadGraph::erase`: when every
neighbour pointer is valid, the fold succeeds and applies `upd` exactly to the
listed nodes (idempotence of `upd` absorbs duplicate pointers). -/
theorem removeEdgeRefs_lookup (upd : Node → Node) (hid : ∀ n, upd (upd n) = upd n) :
    ∀ (ps : List Ptr) (h : Heap), (∀ p ∈ ps, ptrOk h p) →
      ∃ h1, removeEdgeRefs h upd ps = some h1 ∧
        ∀ x, h1.lookup x =
          if (some x : Ptr) ∈ ps then (h.lookup x).map upd else h.lookup x := by
  intro ps
  induction ps with
  | nil => intro h _; exact ⟨h, rfl, fun x => by simp⟩
  | cons p ps ih =>
    intro h hall
    obtain ⟨pid, rfl, hpsome⟩ := hall p (by simp)
    cases hl : h.lookup pid with
    | none => rw [hl] at hpsome; cases hpsome
    | some n0 =>
      obtain ⟨h1, hr1, hlook1⟩ := ih (h.update pid upd) fun q hq =>
        ptrOk_congr h _ (fun j => Heap.isSome_update h pid j upd) q
          (hall q (List.mem_cons_of_mem _ hq))
      refine ⟨h1, ?_, ?_⟩
      · rw [removeEdgeRefs, hl]
        exact hr1
      · intro x
        rw [hlook1 x, Heap.lookup_update]
        by_cases hmem : (some x : Ptr) ∈ ps
        · rw [if_pos hmem, if_pos (List.mem_cons_of_mem _ hmem)]
          by_cases hxp : x = pid
          · rw [if_pos hxp]
            cases h.lookup x <;> simp [hid]
          · rw [if_neg hxp]
        · rw [if_neg hmem]
          by_cases hxp : x = pid
          · rw [if_pos hxp, if_pos (by simp [hxp])]
          · rw [if_neg hxp, if_neg (by simp [hxp, hmem])]

/-- The successor-side unlink function of `ThreadGraph::erase` is idempotent. -/
theorem unlink_succ_idem (v : NodeId) :
    ∀ n : Node,
      (fun m : Node =>
          { m with successors := m.successors.filter fun q => !(q == some v) })
        ((fun m : Node =>
          { m with successors := m.successors.filter fun q => !(q == some v) }) n) =
      (fun m : Node =>
          { m with successors := m.successors.filter fun q => !(q == some v) }) n := by
  intro n
  cases n
  simp [filter_self_idem]

/-- The predecessor-side unlink function of `ThreadGraph::erase` is idempotent. -/
theorem unlink_pred_idem (v : NodeId) :
    ∀ n : Node,
      (fun m : Node =>
          { m with predecessors := m.predecessors.filter fun q => !(q == some v) })
        ((fun m : Node =>
          { m with predecessors := m.predecessors.filter fun q => !(q == some v) }) n) =
      (fun m : Node =>
          { m with predecessors := m.predecessors.filter fun q => !(q == some v) }) n := by
  intro n
  cases n
  simp [filter_self_idem]

/-- A successful `ThreadGraph::erase` of a node `v` in the pool of a
well-formed, non-executing graph: it returns true, nulls the handle, removes `v`
from the pool and the heap, purges `v` from every remaining edge list, and
preserves the invariant. -/
theorem erase_success (g : ThreadGraph) (v : NodeId) (n : Node)
    (hwf : HeapWF g.heap) (hexec : g.executingFlag = false)
    (hpool : v ∈ g.taskPool) (hn : g.heap.lookup v = some n) :
    ∃ g', g.erase ⟨some v⟩ = (g', ⟨none⟩, .ok true) ∧
      g'.taskPool = g.taskPool.erase v ∧
      g'.readyCache = g.readyCache ∧
      g'.heap.lookup v = none ∧
      HeapWF g'.heap ∧
      (∀ i m, g'.heap.lookup i = some m →
        (some v : Ptr) ∉ m.predecessors ∧ (some v : Ptr) ∉ m.successors) := by
  obtain ⟨hnodes, hsymm⟩ := hwf
  obtain ⟨_, _, hpo, hso⟩ := hnodes v n hn
  obtain ⟨h1, hr1, hlook1⟩ :=
    removeEdgeRefs_lookup
      (fun m : Node => { m with successors := m.successors.filter fun q => !(q == some v) })
      (unlink_succ_idem v) n.predecessors g.heap hpo
  have hdom1 : ∀ j, (h1.lookup j).isSome = (g.heap.lookup j).isSome := by
    intro j
    rw [hlook1]
    split_ifs <;> cases g.heap.lookup j <;> rfl
  obtain ⟨h2, hr2, hlook2⟩ :=
    removeEdgeRefs_lookup
      (fun m : Node => { m with predecessors := m.predecessors.filter fun q => !(q == some v) })
      (unlink_pred_idem v) n.successors h1 fun q hq =>
      ptrOk_congr g.heap h1 hdom1 q (hso q hq)
  have hdom2 : ∀ j, (h2.lookup j).isSome = (h1.lookup j).isSome := by
    intro j
    rw [hlook2]
    split_ifs <;> cases h1.lookup j <;> rfl
  have heval : g.erase ⟨some v⟩ =
      ({ g with heap := h2.eraseId v, taskPool := g.taskPool.erase v },
        ⟨none⟩, .ok true) := by
    rw [ThreadGraph.erase]
    simp only [hexec, Bool.false_eq_true, if_false, if_pos hpool, hn, hr1, hr2]
  -- the combined lookup characterization of the final heap
  have hext : ∀ x m, (h2.eraseId v).lookup x = some m →
      x ≠ v ∧ ∃ m0, g.heap.lookup x = some m0 ∧
        m.predecessors = (if (some x : Ptr) ∈ n.successors then
          m0.predecessors.filter fun q => !(q == some v) else m0.predecessors) ∧
        m.successors = (if (some x : Ptr) ∈ n.predecessors then
          m0.successors.filter fun q => !(q == some v) else m0.successors) := by
    intro x m hm
    rw [Heap.lookup_eraseId] at hm
    by_cases hxv : x = v
    · rw [if_pos hxv] at hm; cases hm
    · rw [if_neg hxv] at hm
      refine ⟨hxv, ?_⟩
      rw [hlook2] at hm
      split_ifs at hm with h2s
      · rw [hlook1] at hm
        split_ifs at hm with h1p
        · cases hgx : g.heap.lookup x with
          | none => rw [hgx] at hm; cases hm
          | some m0 =>
            rw [hgx] at hm
            injection hm with hm'
            exact ⟨m0, rfl, by rw [← hm', if_pos h2s], by rw [← hm', if_pos h1p]⟩
        · cases hgx : g.heap.lookup x with
          | none => rw [hgx] at hm; cases hm
          | some m0 =>
            rw [hgx] at hm
            injection hm with hm'
            exact ⟨m0, rfl, by rw [← hm', if_pos h2s], by rw [← hm', if_neg h1p]⟩
      · rw [hlook1] at hm
        split_ifs at hm with h1p
        · cases hgx : g.heap.lookup x with
          | none => rw [hgx] at hm; cases hm
          | some m0 =>
            rw [hgx] at hm
            injection hm with hm'
            exact ⟨m0, rfl, by rw [← hm', if_neg h2s], by rw [← hm', if_pos h1p]⟩
        · exact ⟨m, hm, by rw [if_neg h2s], by rw [if_neg h1p]⟩
  have habs : ∀ x m, (h2.eraseId v).lookup x = some m →
      (some v : Ptr) ∉ m.predecessors ∧ (some v : Ptr) ∉ m.successors := by
    intro x m hm
    obtain ⟨hxv, m0, hm0, hpred, hsucc⟩ := hext x m hm
    constructor
    · rw [hpred]
      split_ifs with h2s
      · intro hc
        have := (List.mem_filter.mp hc).2
        simp at this
      · intro hc
        exact h2s ((hsymm v n x m0 hn hm0).mpr hc)
    · rw [hsucc]
      split_ifs with h1p
      · intro hc
        have := (List.mem_filter.mp hc).2
        simp at this
      · intro hc
        exact h1p ((hsymm x m0 v n hm0 hn).mp hc)
  refine ⟨_, heval, rfl, rfl, ?_, ?_, habs⟩
  · rw [Heap.lookup_eraseId, if_pos rfl]
  · constructor
    · intro i m hm
      obtain ⟨hiv, m0, hm0, hpred, hsucc⟩ := hext i m hm
      obtain ⟨hpn0, hsn0, hpo0, hso0⟩ := hnodes i m0 hm0
      refine ⟨?_, ?_, ?_, ?_⟩
      · rw [hpred]; split_ifs
        · exact hpn0.filter _
        · exact hpn0
      · rw [hsucc]; split_ifs
        · exact hsn0.filter _
        · exact hsn0
      · intro p hp
        have hp0 : p ∈ m0.predecessors := by
          rw [hpred] at hp
          split_ifs at hp
          · exact (List.mem_filter.mp hp).1
          · exact hp
        obtain ⟨j, rfl, hj⟩ := hpo0 p hp0
        have hjv : j ≠ v := by
          intro hc
          subst hc
          exact (habs i m hm).1 ((hpred ▸ hp : (some j : Ptr) ∈ m.predecessors))
        refine ⟨j, rfl, ?_⟩
        rw [Heap.lookup_eraseId, if_neg hjv, hdom2, hdom1]
        exact hj
      · intro p hp
        have hp0 : p ∈ m0.successors := by
          rw [hsucc] at hp
          split_ifs at hp
          · exact (List.mem_filter.mp hp).1
          · exact hp
        obtain ⟨j, rfl, hj⟩ := hso0 p hp0
        have hjv : j ≠ v := by
          intro hc
          subst hc
          exact (habs i m hm).2 ((hsucc ▸ hp : (some j : Ptr) ∈ m.successors))
        refine ⟨j, rfl, ?_⟩
        rw [Heap.lookup_eraseId, if_neg hjv, hdom2, hdom1]
        exact hj
    · intro a na b nb hna hnb
      obtain ⟨hav, na0, hna0, _, hsa⟩ := hext a na hna
      obtain ⟨hbv, nb0, hnb0, hpb, _⟩ := hext b nb hnb
      have base := hsymm a na0 b nb0 hna0 hnb0
      rw [hsa, hpb]
      constructor
      · intro hc
        have hc0 : (some b : Ptr) ∈ na0.successors := by
          split_ifs at hc
          · exact (List.mem_filter.mp hc).1
          · exact hc
        have := base.mp hc0
        split_ifs with hbw
        · exact (mem_filter_ne _ a v hav).mpr this
        · exact this
      · intro hc
        have hc0 : (some a : Ptr) ∈ nb0.predecessors := by
          split_ifs at hc
          · exact (List.mem_filter.mp hc).1
          · exact hc
        have := base.mpr hc0
        split_ifs with haw
        · exact (mem_filter_ne _ b v hbv).mpr this
        · exact this

/-- C8: when the graph is not executing, `erase` on a valid handle to a pooled
node returns true, removes the node from the pool and the heap, purges its id
from the predecessor and successor lists of every remaining node, and nulls the
handle; it returns false on an empty handle (checked before the executing
check) or a node not in this graph; it fails with RUNTIME_ERROR when the graph
is executing. -/
theorem c8_erase_contract (g : ThreadGraph) (t : Task) :
    (t.node = none → g.erase t = (g, t, .ok false)) ∧
    (∀ v, t.node = some v → g.executingFlag = true →
      g.erase t = (g, t, .error (.runtimeError "Cannot erase tasks while executing."))) ∧
    (∀ v, t.node = some v → g.executingFlag = false → v ∉ g.taskPool →
      g.erase t = (g, t, .ok false)) ∧
    (∀ v n, t.node = some v → g.executingFlag = false → v ∈ g.taskPool →
      g.heap.lookup v = some n → HeapWF g.heap →
      ∃ g', g.erase t = (g', ⟨none⟩, .ok true) ∧
        g'.taskPool = g.taskPool.erase v ∧
        g'.heap.lookup v = none ∧
        (∀ i m, g'.heap.lookup i = some m →
          (some v : Ptr) ∉ m.predecessors ∧ (some v : Ptr) ∉ m.successors)) := by
  obtain ⟨tn⟩ := t
  refine ⟨?_, ?_, ?_, ?_⟩
  · rintro rfl
    rfl
  · rintro v rfl hexec
    rw [ThreadGraph.erase]
    simp [hexec]
  · rintro v rfl hexec hmem
    rw [ThreadGraph.erase]
    simp [hexec, hmem]
  · rintro v n rfl hexec hmem hl hwf
    obtain ⟨g', heq, hpool, _, hv, _, habs⟩ := erase_success g v n hwf hexec hmem hl
    exact ⟨g', heq, hpool, hv, habs⟩

/-- The two-node chain heap 1 → 2 satisfies the invariant. -/
theorem demo_heap_wf :
    HeapWF [(1, ⟨.ready, [], [some 2]⟩), (2, ⟨.ready, [some 1], []⟩)] := by
  have hcases : ∀ x nx,
      Heap.lookup [(1, ⟨.ready, [], [some 2]⟩), (2, ⟨.ready, [some 1], []⟩)] x = some nx →
      (x = 1 ∧ nx = ⟨.ready, [], [some 2]⟩) ∨ (x = 2 ∧ nx = ⟨.ready, [some 1], []⟩) := by
    intro x nx hx
    simp only [Heap.lookup] at hx
    split_ifs at hx with hx1 hx2
    · exact Or.inl ⟨hx1.symm, (Option.some.inj hx).symm⟩
    · exact Or.inr ⟨hx2.symm, (Option.some.inj hx).symm⟩
  constructor
  · intro i nn hn
    rcases hcases i nn hn with ⟨rfl, rfl⟩ | ⟨rfl, rfl⟩
    · refine ⟨by simp, by simp, by simp, ?_⟩
      intro p hp
      rw [List.mem_singleton] at hp
      subst hp
      exact ⟨2, rfl, rfl⟩
    · refine ⟨by simp, by simp, ?_, by simp⟩
      intro p hp
      rw [List.mem_singleton] at hp
      subst hp
      exact ⟨1, rfl, rfl⟩
  · intro a na b nb ha hb
    rcases hcases a na ha with ⟨rfl, rfl⟩ | ⟨rfl, rfl⟩ <;>
      rcases hcases b nb hb with ⟨rfl, rfl⟩ | ⟨rfl, rfl⟩ <;> decide

/-- Witness for C8: erasing node 1 of the two-node chain 1 → 2. -/
theorem c8_witness :
    ∃ g', ThreadGraph.erase
        ⟨[(1, ⟨.ready, [], [some 2]⟩), (2, ⟨.ready, [some 1], []⟩)], [1, 2], [], false, false⟩
        ⟨some 1⟩ = (g', ⟨none⟩, .ok true) ∧
      g'.taskPool = [2] ∧
      g'.heap.lookup 1 = none ∧
      (∀ i m, g'.heap.lookup i = some m →
        (some 1 : Ptr) ∉ m.predecessors ∧ (some 1 : Ptr) ∉ m.successors) :=
  (c8_erase_contract
      ⟨[(1, ⟨.ready, [], [some 2]⟩), (2, ⟨.ready, [some 1], []⟩)], [1, 2], [], false, false⟩
      ⟨some 1⟩).2.2.2 1 ⟨.ready, [], [some 2]⟩ rfl rfl (by decide) rfl demo_heap_wf

theorem push_heap_eq (g : ThreadGraph) (p : Ptr) : (g.push p).1.heap = g.heap := by
  cases p with
  | none => rfl
  | some nid =>
    rw [ThreadGraph.push]
    split_ifs <;> try rfl
    all_goals cases g.heap.lookup nid
    all_goals dsimp only []
    all_goals split_ifs <;> rfl

/-- Every graph-mutation operation preserves the heap invariant, whether it
returns normally or with an error. -/
theorem applyOp_preserves_wf (g : ThreadGraph) (op : GraphOp) (hwf : HeapWF g.heap) :
    HeapWF (applyOp g op).heap := by
  cases op with
  | pushOp p => rw [applyOp, push_heap_eq]; exact hwf
  | dependOp s o => exact depend_preserves_wf g.heap s o hwf
  | precedeOp s o => exact depend_preserves_wf g.heap o s hwf
  | eraseDependOp s o => exact erase_depend_preserves_wf g.heap s o hwf
  | erasePrecedeOp s o => exact erase_precede_preserves_wf g.heap s o hwf
  | eraseOp t =>
    rw [applyOp]
    obtain ⟨tn⟩ := t
    cases tn with
    | none => exact hwf
    | some v =>
      by_cases hexec : g.executingFlag = true
      · have hg : (g.erase ⟨some v⟩).1 = g := by
          rw [ThreadGraph.erase]; simp [hexec]
        rw [hg]; exact hwf
      · rw [Bool.not_eq_true] at hexec
        by_cases hmem : v ∈ g.taskPool
        · cases hl : g.heap.lookup v with
          | none =>
            have hg : (g.erase ⟨some v⟩).1 = g := by
              rw [ThreadGraph.erase]; simp [hexec, hmem, hl]
            rw [hg]; exact hwf
          | some n =>
            obtain ⟨g', heq, _, _, _, hwf', _⟩ := erase_success g v n hwf hexec hmem hl
            rw [heq]
            exact hwf'
        · have hg : (g.erase ⟨some v⟩).1 = g := by
            rw [ThreadGraph.erase]; simp [hexec, hmem]
          rw [hg]; exact hwf

theorem applyOps_preserves_wf (ops : List GraphOp) :
    ∀ g : ThreadGraph, HeapWF g.heap → HeapWF (applyOps g ops).heap := by
  induction ops with
  | nil => intro g hwf; exact hwf
  | cons op ops ih => intro g hwf; exact ih (applyOp g op) (applyOp_preserves_wf g op hwf)

/-- C6: edge symmetry is an invariant — after any sequence of push, depend,
precede, erase_depend, erase_precede and erase (each returning normally or with
an error), for every pair of nodes (a, b), `b ∈ succ(a) ⇔ a ∈ pred(b)`, and no
predecessor or successor list contains duplicates. -/
theorem c6_edge_symmetry (g : ThreadGraph) (ops : List GraphOp) (hwf : HeapWF g.heap) :
    (∀ a na b nb, (applyOps g ops).heap.lookup a = some na →
        (applyOps g ops).heap.lookup b = some nb →
        ((some b : Ptr) ∈ na.successors ↔ (some a : Ptr) ∈ nb.predecessors)) ∧
    (∀ i n, (applyOps g ops).heap.lookup i = some n →
        n.predecessors.Nodup ∧ n.successors.Nodup) := by
  have h := applyOps_preserves_wf ops g hwf
  exact ⟨h.2, fun i n hn => ⟨(h.1 i n hn).1, (h.1 i n hn).2.1⟩⟩

/-- Witness for C6: push the two chain nodes and re-add the existing edge. -/
theorem c6_witness :
    (∀ a na b nb,
        (applyOps
          ⟨[(1, ⟨.ready, [], [some 2]⟩), (2, ⟨.ready, [some 1], []⟩)], [], [], false, false⟩
          [.pushOp (some 1), .pushOp (some 2),
            .dependOp ⟨some 2⟩ ⟨some 1⟩]).heap.lookup a = some na →
        (applyOps
          ⟨[(1, ⟨.ready, [], [some 2]⟩), (2, ⟨.ready, [some 1], []⟩)], [], [], false, false⟩
          [.pushOp (some 1), .pushOp (some 2),
            .dependOp ⟨some 2⟩ ⟨some 1⟩]).heap.lookup b = some nb →
        ((some b : Ptr) ∈ na.successors ↔ (some a : Ptr) ∈ nb.predecessors)) ∧
    (∀ i n,
        (applyOps
          ⟨[(1, ⟨.ready, [], [some 2]⟩), (2, ⟨.ready, [some 1], []⟩)], [], [], false, false⟩
          [.pushOp (some 1), .pushOp (some 2),
            .dependOp ⟨some 2⟩ ⟨some 1⟩]).heap.lookup i = some n →
        n.predecessors.Nodup ∧ n.successors.Nodup) :=
  c6_edge_symmetry
    ⟨[(1, ⟨.ready, [], [some 2]⟩), (2, ⟨.ready, [some 1], []⟩)], [], [], false, false⟩
    [.pushOp (some 1), .pushOp (some 2), .dependOp ⟨some 2⟩ ⟨some 1⟩] demo_heap_wf

end AThread
